import Mathlib

/-!
Verification of the INDRA database preassembly manager
(src/indra/db/preassembly_manager.py): deduplication of raw statements into
unique statements with evidence links, discovery of refinement/support links
via batch-pair tiling, incremental corpus supplementation, and the
update-ledger decorator.

Statement content is represented by its canonical content key (a natural
number); content hashes are obtained through an arbitrary hash function
mkHash, and the external ontology collaborator is an arbitrary boolean
relation refines (refines a b means the statement with content a is a
specialization of, i.e. refines, the statement with content b).
-/

namespace Preassembly

/-- A raw statement as stored in the raw statement table: an opaque unique id
(uuid) together with its canonical content key after the external
grounding/sequence normalization steps (spec section 3; the normalization
collaborators map_grounding and map_sequence are outside the core and are
absorbed into the stored key).  The content key is the full normalized
content, so raw statements with equal keys are duplicates of one another. -/
structure Raw where
  uuid : Nat
  key : Nat
deriving DecidableEq

/-- Fuel-bounded chunking loop: every step consumes at least one element, so
a fuel equal to the list length suffices and the fallback arm is never
reached from batch_iter. -/
def batch_iter_fuel (n : Nat) : Nat → List α → List (List α)
  | _, [] => []
  | 0, l => [l]
  | fuel + 1, x :: xs => (x :: xs.take (n - 1)) :: batch_iter_fuel n fuel (xs.drop (n - 1))

/-- Modelled from the spec: batch_iter (indra.util, not under src/) is the
Batch Streamer (spec 4.1).  It turns a statement sequence into consecutive
chunks of at most the given size, preserving order. -/
def batch_iter (n : Nat) (l : List α) : List (List α) :=
  batch_iter_fuel n l.length l

/-- Modelled from the spec: the ordered index pairs compared by
Preassembler._generate_id_maps (not under src/).  With no split index, all
pairs of distinct positions are in scope; with split index k, only the pairs
crossing the boundary between the first k statements and the rest are in
scope (spec 4.3). -/
def in_scope (split : Option Nat) (i j : Nat) : Bool :=
  match split with
  | none => i != j
  | some k => (decide (i < k) && decide (k ≤ j)) || (decide (j < k) && decide (k ≤ i))

variable (mkHash : Nat → Nat) (refines : Nat → Nat → Bool)

/-- PreassemblyManager._get_support_links: find the refinement/support links
among the given unique statements (each given by its content key).  For every
in-scope ordered position pair whose first statement refines (specializes)
the second, the directed pair of content hashes (supported_mk_hash,
supporting_mk_hash) is returned.  The pair scope and refinement test are
Modelled from the spec (4.3), since Preassembler._generate_id_maps is not
under src/; the worker pool (poolsize) only distributes the pair search
across workers whose results are unioned, so it does not affect the returned
set (spec 4.3) and is not modelled. -/
def get_support_links (stmts : List Nat) (split : Option Nat) : Finset (Nat × Nat) :=
  ((List.range stmts.length).flatMap fun i =>
    (List.range stmts.length).filterMap fun j =>
      if in_scope split i j && refines (stmts.getD i 0) (stmts.getD j 0) then
        some (mkHash (stmts.getD i 0), mkHash (stmts.getD j 0))
      else none).toFinset

/-- All directed links from a statement of the first list to a statement of
the second list (the cross-partition links in one direction). -/
def pair_links (A C : List Nat) : Finset (Nat × Nat) :=
  (A.flatMap fun a => C.filterMap fun c =>
    if refines a c then some (mkHash a, mkHash c) else none).toFinset

/-- The support-link tiling loop of PreassemblyManager.create_corpus (lines
199-212): for every ordered pair of batch indices (i, j) of the preassembled
statement batches, the off-diagonal pairs contribute the links of
inner_batch ++ outer_batch with split index len(inner_batch), and the
diagonal contributes the links within the single batch; all results are
unioned. -/
def tile_support_links (BS : List (List Nat)) : Finset (Nat × Nat) :=
  ((List.range BS.length).flatMap fun i =>
    (List.range BS.length).map fun j =>
      if i ≠ j then
        get_support_links mkHash refines (BS.getD j [] ++ BS.getD i [])
          (some (BS.getD j []).length)
      else get_support_links mkHash refines (BS.getD j []) none).foldr (· ∪ ·) ∅

/-- One key per canonical-content group of the chunk, in order of first
occurrence: the content of each group's representative. -/
def unique_keys (kseen : Finset Nat) : List Raw → List Nat
  | [] => []
  | r :: rest =>
    if r.key ∈ kseen then unique_keys kseen rest
    else r.key :: unique_keys (insert r.key kseen) rest

/-- The evidence links of a chunk: every member of a canonical-content group
is linked from its uuid to the content hash of the group's representative;
since the group shares the full canonical content key, that hash is the hash
of the member's own key. -/
def evidence_links (chunk : List Raw) : Finset (Nat × Nat) :=
  (chunk.map fun r => (mkHash r.key, r.uuid)).toFinset

/-- PreassemblyManager._make_unique_statement_set (lines 281-303): group the
chunk by canonical content key, keep one representative per group (the
generic copy of the group's first member), and emit the evidence links from
every group member's uuid to its representative's content hash.  The grouping
function Preassembler._get_stmt_matching_groups is not under src/ and is
Modelled from the spec (4.2): groups share an identical canonical content
key; the representative list keeps one key per group, in order of first
occurrence.  The normalization collaborators map_grounding and map_sequence
are external (spec section 6) and are absorbed into the stored keys. -/
def make_unique_statement_set (chunk : List Raw) : List Nat × Finset (Nat × Nat) :=
  (unique_keys ∅ chunk, evidence_links mkHash chunk)

/-- The per-statement hash guard of _get_unique_statements (lines 155-160):
walk the representative list, and keep each statement whose hash is in
neither mk_done nor the new-hash set accumulated so far, adding its hash to
the accumulator.  Returns the final new-hash set and the kept statements. -/
def dedupe_new (mk_done new_mk : Finset Nat) : List Nat → Finset Nat × List Nat
  | [] => (new_mk, [])
  | k :: rest =>
    if mkHash k ∈ mk_done ∪ new_mk then dedupe_new mk_done new_mk rest
    else
      let p := dedupe_new mk_done (insert (mkHash k) new_mk) rest
      (p.1, k :: p.2)

/-- The same hash guard with a single accumulated set of known hashes. -/
def guarded_keys (seen : Finset Nat) : List Nat → List Nat
  | [] => []
  | k :: rest =>
    if mkHash k ∈ seen then guarded_keys seen rest
    else k :: guarded_keys (insert (mkHash k) seen) rest

/-- The relevant tables of the statement store: raw statements
(raw_statements), preassembled unique statements (pa_statements, stored as
their content keys in insertion order), evidence links (raw_unique_links,
pairs of pa_stmt_mk_hash and raw_stmt_uuid), support links (pa_support_links,
pairs of supported_mk_hash and supporting_mk_hash) and the update ledger
(preassembly_updates, pairs of corpus_init flag and run_datetime, in
insertion order).  The link tables carry set semantics (spec section 3). -/
structure DBState where
  raw : List Raw
  pa : List Nat
  ev_links : Finset (Nat × Nat)
  sup_links : Finset (Nat × Nat)
  updates : List (Bool × Nat)
deriving DecidableEq

/-- One iteration of the batch loop of _get_unique_statements (lines
150-163): build the unique statement set of the batch, keep the statements
whose hash is new relative to mk_done and the new hashes seen so far this
call, insert them into the pa table (insert_pa_stmts, an external append
modelled from the spec, section 6 insert_unique) and persist the batch's full
evidence-link set (db.copy into raw_unique_links). -/
def proc_batch (mk_done : Finset Nat) (db : DBState) (new_mk : Finset Nat)
    (batch : List Raw) : DBState × Finset Nat :=
  let us := make_unique_statement_set mkHash batch
  let p := dedupe_new mkHash mk_done new_mk us.1
  ({db with pa := db.pa ++ p.2, ev_links := db.ev_links ∪ us.2}, p.1)

/-- The batch loop of _get_unique_statements, over an explicit chunk list. -/
def get_unique_statements_on (mk_done : Finset Nat) :
    List (List Raw) → DBState → Finset Nat → DBState × Finset Nat
  | [], db, acc => (db, acc)
  | b :: rest, db, acc =>
    let s := proc_batch mkHash mk_done db acc b
    get_unique_statements_on mk_done rest s.1 s.2

/-- PreassemblyManager._get_unique_statements (lines 144-164): stream the raw
statements in batches of batchSize through the deduplication loop, starting
from an empty new-hash set, and return the updated store together with the
set of newly discovered hashes. -/
def get_unique_statements (batchSize : Nat) (db : DBState) (stmts : List Raw)
    (mk_done : Finset Nat) : DBState × Finset Nat :=
  get_unique_statements_on mkHash mk_done (batch_iter batchSize stmts) db ∅

/-- Modelled from the spec: distill_stmts (indra.db.util, not under src/) is
the external dedup-at-source collaborator producing the candidate raw
statement id set for a run (spec section 6, distill_raw_ids); modelled as
the id set of all stored raw statements. -/
def distill_stmts (db : DBState) : Finset Nat :=
  (db.raw.map Raw.uuid).toFinset

/-- PreassemblyManager._pa_batch_iter (lines 125-142): stream the
preassembled statements — optionally restricted to a matches-key hash set —
in batches of batchSize, in table order. -/
def pa_batch_iter (batchSize : Nat) (db : DBState) (mk_set : Option (Finset Nat)) :
    List (List Nat) :=
  match mk_set with
  | none => batch_iter batchSize db.pa
  | some s => batch_iter batchSize (db.pa.filter fun k => mkHash k ∈ s)

/-- The body of PreassemblyManager.create_corpus (lines 166-215): compute the
distilled raw id set; in continuing mode subtract the already linked raw ids
and seed the done hash set from the persisted evidence links (the tuple
unpacking of the link rows at lines 182-184 raises on an empty link table,
modelled as the failure result none).  The remaining raw statements are
streamed through _get_unique_statements when any remain, then the support
links of all ordered batch pairs of the preassembled table are unioned and
persisted.  Returns the updated store and the completion result (some true
on success, none standing for an unhandled exception). -/
def create_corpus_body (batchSize : Nat) (continuing : Bool) (db : DBState) :
    DBState × Option Bool :=
  if continuing ∧ db.ev_links = ∅ then (db, none)
  else
    let distilled := distill_stmts db
    let stmt_ids := if continuing then distilled \ db.ev_links.image Prod.snd else distilled
    let done_pa_ids : Finset Nat := if continuing then db.ev_links.image Prod.fst else ∅
    let stmts := db.raw.filter fun r => r.uuid ∈ stmt_ids
    let db1 := if stmt_ids ≠ ∅ then
        (get_unique_statements mkHash batchSize db stmts done_pa_ids).1
      else db
    let links := tile_support_links mkHash refines (pa_batch_iter mkHash batchSize db1 none)
    ({db1 with sup_links := db1.sup_links ∪ links}, some true)

/-- The support-link phase of PreassemblyManager.supplement_corpus (lines
253-276): for every batch of the new preassembled statements, find the links
within the batch, the links against the new statements outside the batch
(cross only, via the split index) and the links against every batch of the
pre-existing statements (cross only), and union everything. -/
def supplement_links (batchSize : Nat) (db1 : DBState) (new_mk old_mk : Finset Nat) :
    Finset (Nat × Nat) :=
  ((pa_batch_iter mkHash batchSize db1 (some new_mk)).flatMap fun npa =>
    get_support_links mkHash refines npa none ::
      (((pa_batch_iter mkHash batchSize db1
          (some (new_mk \ (npa.map mkHash).toFinset))).map fun diffb =>
        get_support_links mkHash refines (npa ++ diffb) (some npa.length)) ++
      ((pa_batch_iter mkHash batchSize db1 (some old_mk)).map fun opa =>
        get_support_links mkHash refines (npa ++ opa) (some npa.length)))).foldr (· ∪ ·) ∅

/-- The body of PreassemblyManager.supplement_corpus (lines 217-279): the new
raw statement ids are those with no row in raw_unique_links, intersected with
the distilled id set; the corresponding statements are deduplicated against
the hash set of the existing preassembled statements, and the new support
links are found batchwise and persisted.  The latest update time is only
read and logged (lines 229-230) and has no behavioral effect, so it is not
modelled.  Returns the updated store and the completion result. -/
def supplement_corpus_body (batchSize : Nat) (db : DBState) : DBState × Option Bool :=
  let old_uuids := db.ev_links.image Prod.snd
  let all_new := (db.raw.map Raw.uuid).toFinset \ old_uuids
  let new_stmt_ids := all_new ∩ distill_stmts db
  let new_stmts := db.raw.filter fun r => r.uuid ∈ new_stmt_ids
  let old_mk := (db.pa.map mkHash).toFinset
  let s := get_unique_statements mkHash batchSize db new_stmts old_mk
  let links := supplement_links mkHash refines batchSize s.1 s.2 old_mk
  ({s.1 with sup_links := s.1.sup_links ∪ links}, some true)

/-- The decorator _handle_update_table (lines 76-86): capture run_datetime,
run the wrapped function, and only when it returns a truthy completion value
insert one row into the preassembly_updates ledger, with corpus_init set
exactly when the wrapped function is create_corpus; a falsy return or an
unhandled exception (the failure result none) leaves the ledger untouched. -/
def handle_update_table (is_create_corpus : Bool) (func : DBState → DBState × Option Bool)
    (run_datetime : Nat) (db : DBState) : DBState × Option Bool :=
  let r := func db
  match r.2 with
  | some completed =>
    if completed then
      ({r.1 with updates := r.1.updates ++ [(is_create_corpus, run_datetime)]}, some completed)
    else r
  | none => r

/-- PreassemblyManager.create_corpus, with its decorator. -/
def create_corpus (batchSize : Nat) (continuing : Bool) (t : Nat) (db : DBState) :
    DBState × Option Bool :=
  handle_update_table true (create_corpus_body mkHash refines batchSize continuing) t db

/-- PreassemblyManager.supplement_corpus, with its decorator. -/
def supplement_corpus (batchSize : Nat) (t : Nat) (db : DBState) : DBState × Option Bool :=
  handle_update_table false (supplement_corpus_body mkHash refines batchSize) t db

/-- The observable outcome of one decorated run when the clock is made
explicit: the updated store, the completion result (none standing for an
unhandled exception), the clock value when the run finished, and the clock
values at which the run processed statements. -/
structure RunOutcome where
  db : DBState
  result : Option Bool
  end_time : Nat
  event_times : List Nat
deriving DecidableEq

/-- The decorator _handle_update_table with the clock made explicit:
run_datetime is read from the clock before the wrapped function runs (line
79, datetime.utcnow()); the function then runs, advancing the clock and
processing statements at later instants; on truthy completion the ledger row
is written with the pre-run timestamp, not the completion-time one. -/
def handle_update_table_timed (is_create_corpus : Bool)
    (func : Nat → DBState → RunOutcome) (start_time : Nat) (db : DBState) : RunOutcome :=
  let run_datetime := start_time
  let out := func start_time db
  match out.result with
  | some completed =>
    if completed then
      {out with db :=
        {out.db with updates := out.db.updates ++ [(is_create_corpus, run_datetime)]}}
    else out
  | none => out

theorem batch_iter_fuel_nil (n : Nat) : ∀ fuel, batch_iter_fuel n fuel ([] : List α) = []
  | 0 => by rw [batch_iter_fuel]
  | _ + 1 => by rw [batch_iter_fuel]

theorem batch_iter_fuel_irrel (n : Nat) :
    ∀ (fuel : Nat) (l : List α) (fuel2 : Nat), l.length ≤ fuel → l.length ≤ fuel2 →
      batch_iter_fuel n fuel l = batch_iter_fuel n fuel2 l := by
  intro fuel
  induction fuel with
  | zero =>
    intro l fuel2 h1 _
    have hl : l = [] := List.length_eq_zero.mp (by omega)
    subst hl
    rw [batch_iter_fuel_nil, batch_iter_fuel_nil]
  | succ f ih =>
    intro l fuel2 h1 h2
    match l, fuel2 with
    | [], f2 => rw [batch_iter_fuel_nil, batch_iter_fuel_nil]
    | x :: xs, 0 => simp at h2
    | x :: xs, f2 + 1 =>
      rw [batch_iter_fuel, batch_iter_fuel]
      congr 1
      apply ih
      · simp at h1 ⊢
        omega
      · simp at h2 ⊢
        omega

theorem batch_iter_nil (n : Nat) : batch_iter n ([] : List α) = [] := rfl

theorem batch_iter_cons (n : Nat) (x : α) (xs : List α) :
    batch_iter n (x :: xs) = (x :: xs.take (n - 1)) :: batch_iter n (xs.drop (n - 1)) := by
  rw [batch_iter, batch_iter]
  simp only [List.length_cons]
  rw [batch_iter_fuel]
  congr 1
  apply batch_iter_fuel_irrel
  · simp
  · exact le_refl _

/-- Concatenating the chunks produced by the batch streamer restores the
original sequence. -/
theorem batch_iter_flatten (n : Nat) : ∀ l : List α, (batch_iter n l).flatten = l
  | [] => rfl
  | x :: xs => by
    rw [batch_iter_cons, List.flatten_cons, batch_iter_flatten n (xs.drop (n - 1))]
    simp
termination_by l => l.length
decreasing_by simp; omega

theorem mem_pair_links {A C : List Nat} {p : Nat × Nat} :
    p ∈ pair_links mkHash refines A C ↔
      ∃ a ∈ A, ∃ c ∈ C, refines a c = true ∧ p = (mkHash a, mkHash c) := by
  simp only [pair_links, List.mem_toFinset, List.mem_flatMap, List.mem_filterMap]
  constructor
  · rintro ⟨a, ha, c, hc, h⟩
    split at h
    · exact ⟨a, ha, c, hc, by assumption, (Option.some_inj.mp h).symm⟩
    · exact absurd h (by simp)
  · rintro ⟨a, ha, c, hc, hr, hp⟩
    exact ⟨a, ha, c, hc, by simp [hr, hp]⟩

theorem mem_get_support_links {stmts : List Nat} {split : Option Nat} {p : Nat × Nat} :
    p ∈ get_support_links mkHash refines stmts split ↔
      ∃ i j, i < stmts.length ∧ j < stmts.length ∧ in_scope split i j = true ∧
        refines (stmts.getD i 0) (stmts.getD j 0) = true ∧
        p = (mkHash (stmts.getD i 0), mkHash (stmts.getD j 0)) := by
  simp only [get_support_links, List.mem_toFinset, List.mem_flatMap, List.mem_filterMap,
    List.mem_range]
  constructor
  · rintro ⟨i, hi, j, hj, h⟩
    split at h
    · rename_i hcond
      simp only [Bool.and_eq_true] at hcond
      exact ⟨i, j, hi, hj, hcond.1, hcond.2, (Option.some_inj.mp h).symm⟩
    · exact absurd h (by simp)
  · rintro ⟨i, j, hi, hj, hsc, hr, hp⟩
    refine ⟨i, hi, j, hj, ?_⟩
    rw [hsc, hr]
    simp [hp]

theorem in_scope_none {i j : Nat} : in_scope none i j = true ↔ i ≠ j := by
  simp [in_scope]

theorem in_scope_some {k i j : Nat} :
    in_scope (some k) i j = true ↔ (i < k ∧ k ≤ j) ∨ (j < k ∧ k ≤ i) := by
  simp [in_scope]

theorem getD_mem {α : Type} {l : List α} {i : Nat} (d : α) (h : i < l.length) :
    l.getD i d ∈ l := by
  rw [List.getD_eq_getElem l d h]
  exact List.getElem_mem h

theorem getD_of_getElem {α : Type} {l : List α} {i : Nat} {a : α} {d : α} (h : i < l.length)
    (ha : l[i] = a) : l.getD i d = a := by
  rw [List.getD_eq_getElem l d h]
  exact ha

theorem mem_getD_iff {α : Type} {l : List α} {b : α} (d : α) :
    b ∈ l ↔ ∃ i, i < l.length ∧ l.getD i d = b := by
  constructor
  · intro hb
    obtain ⟨i, hi, hib⟩ := List.mem_iff_getElem.mp hb
    exact ⟨i, hi, getD_of_getElem hi hib⟩
  · rintro ⟨i, hi, hib⟩
    rw [← hib]
    exact getD_mem d hi

/-- Calling the link finder on a concatenation with the split index at the
boundary returns exactly the cross-partition links, in both directions. -/
theorem get_support_links_split (A C : List Nat) :
    get_support_links mkHash refines (A ++ C) (some A.length) =
      pair_links mkHash refines A C ∪ pair_links mkHash refines C A := by
  ext p
  rw [Finset.mem_union, mem_get_support_links, mem_pair_links, mem_pair_links]
  constructor
  · rintro ⟨i, j, hi, hj, hsc, hr, hp⟩
    rw [List.length_append] at hi hj
    rcases in_scope_some.mp hsc with ⟨hik, hkj⟩ | ⟨hjk, hki⟩
    · left
      rw [List.getD_append A C 0 i hik, List.getD_append_right A C 0 j hkj] at hr hp
      exact ⟨A.getD i 0, getD_mem 0 hik, C.getD (j - A.length) 0,
        getD_mem 0 (by omega), hr, hp⟩
    · right
      rw [List.getD_append A C 0 j hjk, List.getD_append_right A C 0 i hki] at hr hp
      exact ⟨C.getD (i - A.length) 0, getD_mem 0 (by omega), A.getD j 0,
        getD_mem 0 hjk, hr, hp⟩
  · rintro (⟨a, ha, c, hc, hr, hp⟩ | ⟨c, hc, a, ha, hr, hp⟩)
    · obtain ⟨i, hi, hia⟩ := List.mem_iff_getElem.mp ha
      obtain ⟨j, hj, hjc⟩ := List.mem_iff_getElem.mp hc
      refine ⟨i, A.length + j, by simp; omega, by simp; omega, in_scope_some.mpr ?_, ?_, ?_⟩
      · omega
      · rw [List.getD_append A C 0 i hi, List.getD_append_right A C 0 _ (by omega),
          Nat.add_sub_cancel_left, getD_of_getElem hi hia, getD_of_getElem hj hjc]
        exact hr
      · rw [List.getD_append A C 0 i hi, List.getD_append_right A C 0 _ (by omega),
          Nat.add_sub_cancel_left, getD_of_getElem hi hia, getD_of_getElem hj hjc]
        exact hp
    · obtain ⟨i, hi, hic⟩ := List.mem_iff_getElem.mp hc
      obtain ⟨j, hj, hja⟩ := List.mem_iff_getElem.mp ha
      refine ⟨A.length + i, j, by simp; omega, by simp; omega, in_scope_some.mpr ?_, ?_, ?_⟩
      · omega
      · rw [List.getD_append A C 0 j hj, List.getD_append_right A C 0 _ (by omega),
          Nat.add_sub_cancel_left, getD_of_getElem hj hja, getD_of_getElem hi hic]
        exact hr
      · rw [List.getD_append A C 0 j hj, List.getD_append_right A C 0 _ (by omega),
          Nat.add_sub_cancel_left, getD_of_getElem hj hja, getD_of_getElem hi hic]
        exact hp

/-- Splitting a full (no split index) link search at any list boundary: the
links of the concatenation are the links within each part together with the
cross links in both directions. -/
theorem get_support_links_none_append (A C : List Nat) :
    get_support_links mkHash refines (A ++ C) none =
      get_support_links mkHash refines A none ∪ get_support_links mkHash refines C none ∪
        pair_links mkHash refines A C ∪ pair_links mkHash refines C A := by
  ext p
  rw [Finset.mem_union, Finset.mem_union, Finset.mem_union, mem_get_support_links,
    mem_get_support_links, mem_get_support_links, mem_pair_links, mem_pair_links]
  constructor
  · rintro ⟨i, j, hi, hj, hsc, hr, hp⟩
    rw [List.length_append] at hi hj
    have hij : i ≠ j := in_scope_none.mp hsc
    by_cases hik : i < A.length <;> by_cases hjk : j < A.length
    · refine Or.inl (Or.inl (Or.inl ⟨i, j, hik, hjk, in_scope_none.mpr hij, ?_, ?_⟩))
      · rwa [List.getD_append A C 0 i hik, List.getD_append A C 0 j hjk] at hr
      · rwa [List.getD_append A C 0 i hik, List.getD_append A C 0 j hjk] at hp
    · rw [List.getD_append A C 0 i hik, List.getD_append_right A C 0 j (by omega)] at hr hp
      exact Or.inl (Or.inr ⟨A.getD i 0, getD_mem 0 hik, C.getD (j - A.length) 0,
        getD_mem 0 (by omega), hr, hp⟩)
    · rw [List.getD_append A C 0 j hjk, List.getD_append_right A C 0 i (by omega)] at hr hp
      exact Or.inr ⟨C.getD (i - A.length) 0, getD_mem 0 (by omega), A.getD j 0,
        getD_mem 0 hjk, hr, hp⟩
    · refine Or.inl (Or.inl (Or.inr ⟨i - A.length, j - A.length, by omega, by omega,
        in_scope_none.mpr (by omega), ?_, ?_⟩))
      · rwa [List.getD_append_right A C 0 i (by omega),
          List.getD_append_right A C 0 j (by omega)] at hr
      · rwa [List.getD_append_right A C 0 i (by omega),
          List.getD_append_right A C 0 j (by omega)] at hp
  · rintro (((⟨i, j, hi, hj, hsc, hr, hp⟩ | ⟨i, j, hi, hj, hsc, hr, hp⟩) |
      ⟨a, ha, c, hc, hr, hp⟩) | ⟨c, hc, a, ha, hr, hp⟩)
    · refine ⟨i, j, by simp; omega, by simp; omega, hsc, ?_, ?_⟩
      · rwa [List.getD_append A C 0 i hi, List.getD_append A C 0 j hj]
      · rwa [List.getD_append A C 0 i hi, List.getD_append A C 0 j hj]
    · have hij := in_scope_none.mp hsc
      refine ⟨A.length + i, A.length + j, by simp; omega, by simp; omega,
        in_scope_none.mpr (by omega), ?_, ?_⟩
      · rw [List.getD_append_right A C 0 _ (by omega), List.getD_append_right A C 0 _ (by omega)]
        simpa using hr
      · rw [List.getD_append_right A C 0 _ (by omega), List.getD_append_right A C 0 _ (by omega)]
        simpa using hp
    · obtain ⟨i, hi, hia⟩ := List.mem_iff_getElem.mp ha
      obtain ⟨j, hj, hjc⟩ := List.mem_iff_getElem.mp hc
      refine ⟨i, A.length + j, by simp; omega, by simp; omega,
        in_scope_none.mpr (by omega), ?_, ?_⟩
      · rw [List.getD_append A C 0 i hi, List.getD_append_right A C 0 _ (by omega),
          Nat.add_sub_cancel_left, getD_of_getElem hi hia, getD_of_getElem hj hjc]
        exact hr
      · rw [List.getD_append A C 0 i hi, List.getD_append_right A C 0 _ (by omega),
          Nat.add_sub_cancel_left, getD_of_getElem hi hia, getD_of_getElem hj hjc]
        exact hp
    · obtain ⟨i, hi, hic⟩ := List.mem_iff_getElem.mp hc
      obtain ⟨j, hj, hja⟩ := List.mem_iff_getElem.mp ha
      refine ⟨A.length + i, j, by simp; omega, by simp; omega,
        in_scope_none.mpr (by omega), ?_, ?_⟩
      · rw [List.getD_append A C 0 j hj, List.getD_append_right A C 0 _ (by omega),
          Nat.add_sub_cancel_left, getD_of_getElem hj hja, getD_of_getElem hi hic]
        exact hr
      · rw [List.getD_append A C 0 j hj, List.getD_append_right A C 0 _ (by omega),
          Nat.add_sub_cancel_left, getD_of_getElem hj hja, getD_of_getElem hi hic]
        exact hp

theorem mem_foldr_union {L : List (Finset (Nat × Nat))} {p : Nat × Nat} :
    p ∈ L.foldr (· ∪ ·) ∅ ↔ ∃ s ∈ L, p ∈ s := by
  induction L with
  | nil => simp
  | cons s rest ih => simp [ih]

theorem pair_links_flatten_right {A : List Nat} {BS : List (List Nat)} {p : Nat × Nat} :
    p ∈ pair_links mkHash refines A BS.flatten ↔
      ∃ j, j < BS.length ∧ p ∈ pair_links mkHash refines A (BS.getD j []) := by
  simp only [mem_pair_links]
  constructor
  · rintro ⟨a, ha, c, hc, hr, hp⟩
    obtain ⟨b, hb, hcb⟩ := List.mem_flatten.mp hc
    obtain ⟨j, hj, hbj⟩ := (mem_getD_iff []).mp hb
    exact ⟨j, hj, a, ha, c, by rwa [hbj], hr, hp⟩
  · rintro ⟨j, hj, a, ha, c, hc, hr, hp⟩
    exact ⟨a, ha, c, List.mem_flatten.mpr ⟨BS.getD j [], getD_mem [] hj, hc⟩, hr, hp⟩

theorem pair_links_flatten_left {A : List Nat} {BS : List (List Nat)} {p : Nat × Nat} :
    p ∈ pair_links mkHash refines BS.flatten A ↔
      ∃ j, j < BS.length ∧ p ∈ pair_links mkHash refines (BS.getD j []) A := by
  simp only [mem_pair_links]
  constructor
  · rintro ⟨c, hc, a, ha, hr, hp⟩
    obtain ⟨b, hb, hcb⟩ := List.mem_flatten.mp hc
    obtain ⟨j, hj, hbj⟩ := (mem_getD_iff []).mp hb
    exact ⟨j, hj, c, by rwa [hbj], a, ha, hr, hp⟩
  · rintro ⟨j, hj, c, hc, a, ha, hr, hp⟩
    exact ⟨c, List.mem_flatten.mpr ⟨BS.getD j [], getD_mem [] hj, hc⟩, a, ha, hr, hp⟩

/-- Characterization of the full, untiled link search over a flattened batch
list: a link is found exactly when it is a within-batch link of some batch or
a cross link between two distinct batches. -/
theorem mem_gsl_flatten {BS : List (List Nat)} {p : Nat × Nat} :
    p ∈ get_support_links mkHash refines BS.flatten none ↔
      (∃ i, i < BS.length ∧ p ∈ get_support_links mkHash refines (BS.getD i []) none) ∨
      (∃ i j, i < BS.length ∧ j < BS.length ∧ i ≠ j ∧
        p ∈ pair_links mkHash refines (BS.getD i []) (BS.getD j [])) := by
  induction BS with
  | nil =>
    constructor
    · intro h
      rw [List.flatten_nil, mem_get_support_links] at h
      obtain ⟨i, j, hi, _⟩ := h
      simp at hi
    · rintro (⟨i, hi, _⟩ | ⟨i, j, hi, _⟩) <;> simp at hi
  | cons A rest ih =>
    rw [List.flatten_cons, get_support_links_none_append]
    simp only [Finset.mem_union]
    constructor
    · rintro (((h | h) | h) | h)
      · exact Or.inl ⟨0, by simp, by simpa using h⟩
      · rcases ih.mp h with ⟨i, hi, hw⟩ | ⟨i, j, hi, hj, hij, hc⟩
        · exact Or.inl ⟨i + 1, by simpa using hi, by simpa using hw⟩
        · exact Or.inr ⟨i + 1, j + 1, by simpa using hi, by simpa using hj,
            by omega, by simpa using hc⟩
      · obtain ⟨j, hj, hc⟩ := pair_links_flatten_right mkHash refines |>.mp h
        exact Or.inr ⟨0, j + 1, by simp, by simpa using hj, by omega, by simpa using hc⟩
      · obtain ⟨j, hj, hc⟩ := pair_links_flatten_left mkHash refines |>.mp h
        exact Or.inr ⟨j + 1, 0, by simpa using hj, by simp, by omega, by simpa using hc⟩
    · rintro (⟨i, hi, hw⟩ | ⟨i, j, hi, hj, hij, hc⟩)
      · match i with
        | 0 => exact Or.inl (Or.inl (Or.inl (by simpa using hw)))
        | i + 1 =>
          exact Or.inl (Or.inl (Or.inr (ih.mpr (Or.inl
            ⟨i, by simpa using hi, by simpa using hw⟩))))
      · match i, j with
        | 0, 0 => omega
        | 0, j + 1 =>
          refine Or.inl (Or.inr (pair_links_flatten_right mkHash refines |>.mpr ?_))
          exact ⟨j, by simpa using hj, by simpa using hc⟩
        | i + 1, 0 =>
          refine Or.inr (pair_links_flatten_left mkHash refines |>.mpr ?_)
          exact ⟨i, by simpa using hi, by simpa using hc⟩
        | i + 1, j + 1 =>
          exact Or.inl (Or.inl (Or.inr (ih.mpr (Or.inr
            ⟨i, j, by simpa using hi, by simpa using hj, by omega, by simpa using hc⟩))))

/-- Characterization of the tiling loop: it finds exactly the within-batch
links and the cross links between distinct batches. -/
theorem mem_tile_support_links {BS : List (List Nat)} {p : Nat × Nat} :
    p ∈ tile_support_links mkHash refines BS ↔
      (∃ i, i < BS.length ∧ p ∈ get_support_links mkHash refines (BS.getD i []) none) ∨
      (∃ i j, i < BS.length ∧ j < BS.length ∧ i ≠ j ∧
        p ∈ pair_links mkHash refines (BS.getD i []) (BS.getD j [])) := by
  rw [tile_support_links, mem_foldr_union]
  constructor
  · rintro ⟨s, hs, hp⟩
    obtain ⟨i, hi, hs⟩ := List.mem_flatMap.mp hs
    obtain ⟨j, hj, rfl⟩ := List.mem_map.mp hs
    rw [List.mem_range] at hi hj
    by_cases hij : i = j
    · subst hij
      simp only [ne_eq, not_true_eq_false, if_false, ite_false] at hp
      exact Or.inl ⟨i, hi, by simpa using hp⟩
    · rw [if_pos hij, get_support_links_split, Finset.mem_union] at hp
      rcases hp with hp | hp
      · exact Or.inr ⟨j, i, hj, hi, fun h => hij h.symm, hp⟩
      · exact Or.inr ⟨i, j, hi, hj, hij, hp⟩
  · rintro (⟨i, hi, hw⟩ | ⟨i, j, hi, hj, hij, hc⟩)
    · refine ⟨_, List.mem_flatMap.mpr ⟨i, List.mem_range.mpr hi,
        List.mem_map.mpr ⟨i, List.mem_range.mpr hi, rfl⟩⟩, ?_⟩
      simpa using hw
    · refine ⟨_, List.mem_flatMap.mpr ⟨i, List.mem_range.mpr hi,
        List.mem_map.mpr ⟨j, List.mem_range.mpr hj, rfl⟩⟩, ?_⟩
      rw [if_pos hij, get_support_links_split, Finset.mem_union]
      exact Or.inr hc

/-- Tiling correctness: the union of the batch-pair tiling results equals the
untiled link search over the concatenation of all batches. -/
theorem tile_support_links_eq_flatten (BS : List (List Nat)) :
    tile_support_links mkHash refines BS =
      get_support_links mkHash refines BS.flatten none := by
  ext p
  rw [mem_tile_support_links, mem_gsl_flatten]

theorem dedupe_new_eq (mk_done : Finset Nat) :
    ∀ (ks : List Nat) (new_mk : Finset Nat),
      dedupe_new mkHash mk_done new_mk ks =
        (new_mk ∪ ((guarded_keys mkHash (mk_done ∪ new_mk) ks).map mkHash).toFinset,
         guarded_keys mkHash (mk_done ∪ new_mk) ks)
  | [], new_mk => by simp [dedupe_new, guarded_keys]
  | k :: rest, new_mk => by
    rw [dedupe_new, guarded_keys]
    by_cases h : mkHash k ∈ mk_done ∪ new_mk
    · rw [if_pos h, if_pos h, dedupe_new_eq mk_done rest new_mk]
    · rw [if_neg h, if_neg h, dedupe_new_eq mk_done rest (insert (mkHash k) new_mk)]
      have hs : mk_done ∪ insert (mkHash k) new_mk = insert (mkHash k) (mk_done ∪ new_mk) := by
        ext x; simp only [Finset.mem_union, Finset.mem_insert]; tauto
      rw [hs]
      refine Prod.ext ?_ rfl
      simp only [List.map_cons, List.toFinset_cons]
      ext x
      simp only [Finset.mem_union, Finset.mem_insert]
      tauto

/-- The guard only depends on the set of known hashes, so feeding it the
one-representative-per-group list or the full key list of the chunk gives the
same result: duplicate keys inside the chunk are always skipped. -/
theorem guarded_keys_unique_keys :
    ∀ (chunk : List Raw) (kseen : Finset Nat) (s : Finset Nat),
      (∀ k ∈ kseen, mkHash k ∈ s) →
      guarded_keys mkHash s (unique_keys kseen chunk) =
        guarded_keys mkHash s (chunk.map Raw.key)
  | [], kseen, s, _ => rfl
  | r :: rest, kseen, s, hinv => by
    rw [List.map_cons, unique_keys]
    by_cases hk : r.key ∈ kseen
    · rw [if_pos hk, guarded_keys, if_pos (hinv r.key hk),
        guarded_keys_unique_keys rest kseen s hinv]
    · rw [if_neg hk, guarded_keys, guarded_keys]
      by_cases hh : mkHash r.key ∈ s
      · rw [if_pos hh, if_pos hh]
        exact guarded_keys_unique_keys rest (insert r.key kseen) s
          (by intro k hk2; rcases Finset.mem_insert.mp hk2 with rfl | hk2
              · exact hh
              · exact hinv k hk2)
      · rw [if_neg hh, if_neg hh]
        refine congrArg (r.key :: ·) ?_
        exact guarded_keys_unique_keys rest (insert r.key kseen) (insert (mkHash r.key) s)
          (by intro k hk2; rcases Finset.mem_insert.mp hk2 with rfl | hk2
              · exact Finset.mem_insert_self _ _
              · exact Finset.mem_insert_of_mem (hinv k hk2))

/-- The hashes of the statements kept by the guard are exactly the hashes of
the input that were not yet known. -/
theorem guarded_keys_hashes :
    ∀ (ks : List Nat) (s : Finset Nat),
      ((guarded_keys mkHash s ks).map mkHash).toFinset = (ks.map mkHash).toFinset \ s
  | [], s => by simp [guarded_keys]
  | k :: rest, s => by
    rw [guarded_keys]
    by_cases h : mkHash k ∈ s
    · rw [if_pos h, guarded_keys_hashes rest s]
      ext x
      simp only [Finset.mem_sdiff, List.mem_toFinset, List.mem_map, List.mem_cons]
      constructor
      · rintro ⟨⟨a, ha, rfl⟩, hns⟩
        exact ⟨⟨a, Or.inr ha, rfl⟩, hns⟩
      · rintro ⟨⟨a, rfl | ha, rfl⟩, hns⟩
        · exact absurd h hns
        · exact ⟨⟨a, ha, rfl⟩, hns⟩
    · rw [if_neg h]
      simp only [List.map_cons, List.toFinset_cons]
      rw [guarded_keys_hashes rest (insert (mkHash k) s)]
      ext x
      simp only [Finset.mem_insert, Finset.mem_sdiff, List.mem_toFinset, List.mem_map]
      constructor
      · rintro (rfl | ⟨⟨a, ha, rfl⟩, hni⟩)
        · exact ⟨Or.inl rfl, h⟩
        · exact ⟨Or.inr ⟨a, ha, rfl⟩, fun hx => hni (Or.inr hx)⟩
      · rintro ⟨rfl | ⟨a, ha, rfl⟩, hni⟩
        · exact Or.inl rfl
        · by_cases hx : mkHash a = mkHash k
          · exact Or.inl hx
          · exact Or.inr ⟨⟨a, ha, rfl⟩, by simp; exact ⟨hx, hni⟩⟩

/-- The guard never keeps a statement whose hash is already known, and no two
kept statements share a hash. -/
theorem guarded_keys_nodup :
    ∀ (ks : List Nat) (s : Finset Nat),
      ((guarded_keys mkHash s ks).map mkHash).Nodup ∧
        ∀ h ∈ (guarded_keys mkHash s ks).map mkHash, h ∉ s
  | [], s => by simp [guarded_keys]
  | k :: rest, s => by
    rw [guarded_keys]
    by_cases h : mkHash k ∈ s
    · rw [if_pos h]
      exact guarded_keys_nodup rest s
    · rw [if_neg h]
      obtain ⟨hnd, hns⟩ := guarded_keys_nodup rest (insert (mkHash k) s)
      simp only [List.map_cons, List.nodup_cons, List.mem_cons]
      refine ⟨⟨fun hmem => ?_, hnd⟩, ?_⟩
      · exact hns _ hmem (Finset.mem_insert_self _ _)
      · rintro x (rfl | hx)
        · exact h
        · exact fun hxs => hns x hx (Finset.mem_insert_of_mem hxs)

/-- When every input hash is already known the guard keeps nothing. -/
theorem guarded_keys_all_known :
    ∀ (ks : List Nat) (s : Finset Nat), (∀ k ∈ ks, mkHash k ∈ s) →
      guarded_keys mkHash s ks = []
  | [], _, _ => rfl
  | k :: rest, s, h => by
    rw [guarded_keys, if_pos (h k (List.mem_cons_self k rest))]
    exact guarded_keys_all_known rest s fun x hx => h x (List.mem_cons_of_mem k hx)

/-- Splitting the input of the guard: the suffix is filtered against the
hashes accumulated over the prefix. -/
theorem guarded_keys_append :
    ∀ (l1 l2 : List Nat) (s : Finset Nat),
      guarded_keys mkHash s (l1 ++ l2) =
        guarded_keys mkHash s l1 ++
          guarded_keys mkHash (s ∪ (l1.map mkHash).toFinset) l2
  | [], l2, s => by simp [guarded_keys]
  | k :: l1, l2, s => by
    rw [List.cons_append, guarded_keys, guarded_keys]
    by_cases h : mkHash k ∈ s
    · rw [if_pos h, if_pos h, guarded_keys_append l1 l2 s]
      have hs : s ∪ ((k :: l1).map mkHash).toFinset = s ∪ (l1.map mkHash).toFinset := by
        ext x
        simp only [List.map_cons, List.toFinset_cons, Finset.mem_union, Finset.mem_insert]
        constructor
        · rintro (hx | rfl | hx)
          exacts [Or.inl hx, Or.inl h, Or.inr hx]
        · rintro (hx | hx)
          exacts [Or.inl hx, Or.inr (Or.inr hx)]
      rw [hs]
    · rw [if_neg h, if_neg h, guarded_keys_append l1 l2 (insert (mkHash k) s)]
      have hs : insert (mkHash k) s ∪ (l1.map mkHash).toFinset =
          s ∪ ((k :: l1).map mkHash).toFinset := by
        ext x
        simp only [List.map_cons, List.toFinset_cons, Finset.mem_union, Finset.mem_insert]
        tauto
      rw [hs, List.cons_append]

/-- Closed form of the batch loop: the pa additions are the guard-filtered
keys of the concatenated chunks, the evidence additions are the evidence
links of the concatenated chunks, and the new-hash set collects the kept
hashes; the chunk boundaries are irrelevant. -/
theorem get_unique_statements_on_eq (mk_done : Finset Nat) :
    ∀ (BS : List (List Raw)) (db : DBState) (acc : Finset Nat),
      get_unique_statements_on mkHash mk_done BS db acc =
        ({db with
            pa := db.pa ++ guarded_keys mkHash (mk_done ∪ acc) (BS.flatten.map Raw.key),
            ev_links := db.ev_links ∪ evidence_links mkHash BS.flatten},
         acc ∪ ((guarded_keys mkHash (mk_done ∪ acc) (BS.flatten.map Raw.key)).map
            mkHash).toFinset)
  | [], db, acc => by
    simp [get_unique_statements_on, guarded_keys, evidence_links]
  | b :: rest, db, acc => by
    rw [get_unique_statements_on]
    have hstep : proc_batch mkHash mk_done db acc b =
        ({db with
            pa := db.pa ++ guarded_keys mkHash (mk_done ∪ acc) (b.map Raw.key),
            ev_links := db.ev_links ∪ evidence_links mkHash b},
         acc ∪ ((guarded_keys mkHash (mk_done ∪ acc) (b.map Raw.key)).map mkHash).toFinset) := by
      rw [proc_batch, make_unique_statement_set]
      simp only
      rw [dedupe_new_eq, guarded_keys_unique_keys mkHash b ∅ (mk_done ∪ acc) (by simp)]
    rw [hstep, get_unique_statements_on_eq mk_done rest _ _]
    have hseen : mk_done ∪ (acc ∪
        ((guarded_keys mkHash (mk_done ∪ acc) (b.map Raw.key)).map mkHash).toFinset) =
        (mk_done ∪ acc) ∪ ((b.map Raw.key).map mkHash).toFinset := by
      rw [guarded_keys_hashes]
      ext x
      simp only [Finset.mem_union, Finset.mem_sdiff]
      tauto
    rw [hseen]
    have hflat : (b :: rest).flatten.map Raw.key = b.map Raw.key ++ rest.flatten.map Raw.key := by
      rw [List.flatten_cons, List.map_append]
    rw [hflat, guarded_keys_append]
    refine Prod.ext ?_ ?_
    · simp only [List.append_assoc]
      have hev : evidence_links mkHash (b :: rest).flatten =
          evidence_links mkHash b ∪ evidence_links mkHash rest.flatten := by
        rw [evidence_links, evidence_links, evidence_links, List.flatten_cons,
          List.map_append, List.toFinset_append]
      rw [hev]
      simp [Finset.union_assoc]
    · simp only [List.map_append, List.toFinset_append]
      rw [Finset.union_assoc]

theorem evidence_links_snd (l : List Raw) :
    (evidence_links mkHash l).image Prod.snd = (l.map Raw.uuid).toFinset := by
  ext x
  simp [evidence_links]

theorem evidence_links_fst (l : List Raw) :
    (evidence_links mkHash l).image Prod.fst = (l.map fun r => mkHash r.key).toFinset := by
  ext x
  simp [evidence_links]

theorem evidence_links_append (l1 l2 : List Raw) :
    evidence_links mkHash (l1 ++ l2) = evidence_links mkHash l1 ∪ evidence_links mkHash l2 := by
  rw [evidence_links, evidence_links, evidence_links, List.map_append, List.toFinset_append]

/-- The kept keys of the guard map to pairwise distinct hashes; in list form
the hashes of a guard-filtered key list are exactly the fresh input hashes.
Here: distinct batches of a list with pairwise distinct hashes have no hash
in common. -/
theorem nodup_map_flatten_apart {BS : List (List Nat)} {f : Nat → Nat}
    (hnd : ((BS.flatten).map f).Nodup) :
    ∀ i j, i < BS.length → j < BS.length → i ≠ j →
      ∀ x ∈ BS.getD i [], ∀ y ∈ BS.getD j [], f x ≠ f y := by
  have key : ∀ i j, i < BS.length → j < BS.length → i < j →
      ∀ x ∈ BS.getD i [], ∀ y ∈ BS.getD j [], f x ≠ f y := by
    intro i j hi hj hij x hx y hy
    rw [List.map_flatten] at hnd
    have hpw := (List.nodup_flatten.mp hnd).2
    have hi2 : i < (BS.map (List.map f)).length := by simpa using hi
    have hj2 : j < (BS.map (List.map f)).length := by simpa using hj
    have hd := List.pairwise_iff_getElem.mp hpw i j
      (by simpa using hi) (by simpa using hj) hij
    intro hfe
    have hxm : f x ∈ (BS.map (List.map f))[i] := by
      rw [List.getElem_map]
      exact List.mem_map.mpr ⟨x, by rwa [getD_of_getElem (by simpa using hi) rfl] at hx, rfl⟩
    have hym : f y ∈ (BS.map (List.map f))[j] := by
      rw [List.getElem_map]
      exact List.mem_map.mpr ⟨y, by rwa [getD_of_getElem (by simpa using hj) rfl] at hy, rfl⟩
    exact hd hxm (hfe ▸ hym)
  intro i j hi hj hij x hx y hy
  rcases Nat.lt_or_ge i j with h | h
  · exact key i j hi hj h x hx y hy
  · have hji : j < i := by omega
    exact fun hfe => key j i hj hi hji y hy x hx hfe.symm

theorem pair_links_mono {A A' C C' : List Nat} {p : Nat × Nat}
    (hA : ∀ a ∈ A, a ∈ A') (hC : ∀ c ∈ C, c ∈ C')
    (hp : p ∈ pair_links mkHash refines A C) : p ∈ pair_links mkHash refines A' C' := by
  rw [mem_pair_links] at hp ⊢
  obtain ⟨a, ha, c, hc, hr, hpe⟩ := hp
  exact ⟨a, hA a ha, c, hC c hc, hr, hpe⟩

/-- No in-scope position pair relates two equal positions, so when the
statement list carries pairwise distinct hashes every discovered link has
distinct endpoints. -/
theorem get_support_links_no_self {stmts : List Nat} {split : Option Nat}
    (hnd : (stmts.map mkHash).Nodup) :
    ∀ p ∈ get_support_links mkHash refines stmts split, p.1 ≠ p.2 := by
  intro p hp
  rw [mem_get_support_links] at hp
  obtain ⟨i, j, hi, hj, hsc, _, hpe⟩ := hp
  have hij : i ≠ j := by
    rcases split with _ | k
    · exact in_scope_none.mp hsc
    · rcases in_scope_some.mp hsc with ⟨h1, h2⟩ | ⟨h1, h2⟩ <;> omega
  subst hpe
  simp only [ne_eq]
  intro hfe
  apply hij
  rw [List.getD_eq_getElem stmts 0 hi, List.getD_eq_getElem stmts 0 hj] at hfe
  have hi2 : i < (stmts.map mkHash).length := by simpa using hi
  have hj2 : j < (stmts.map mkHash).length := by simpa using hj
  have hg : (stmts.map mkHash)[i] = (stmts.map mkHash)[j] := by
    rw [List.getElem_map, List.getElem_map]
    exact hfe
  exact hnd.getElem_inj_iff.mp hg

theorem pair_links_no_self {A C : List Nat} {p : Nat × Nat}
    (hd : ∀ a ∈ A, ∀ c ∈ C, mkHash a ≠ mkHash c)
    (hp : p ∈ pair_links mkHash refines A C) : p.1 ≠ p.2 := by
  rw [mem_pair_links] at hp
  obtain ⟨a, ha, c, hc, _, hpe⟩ := hp
  subst hpe
  exact hd a ha c hc

/-- Closed form of the supplement-corpus support-link phase: when the
preassembled table splits into the pre-existing statements pa1 and the newly
inserted statements pa2 (with pairwise distinct new hashes, disjoint from the
old ones), the batched three-way search finds exactly the links within the
new statements plus the cross links between old and new, in both
directions. -/
theorem supplement_links_eq (batchSize : Nat) (db1 : DBState) (pa1 pa2 : List Nat)
    (hpa : db1.pa = pa1 ++ pa2)
    (h2 : (pa2.map mkHash).Nodup)
    (hdisj : ∀ h ∈ pa2.map mkHash, h ∉ pa1.map mkHash) :
    supplement_links mkHash refines batchSize db1 (pa2.map mkHash).toFinset
        ((pa1.map mkHash).toFinset) =
      get_support_links mkHash refines pa2 none ∪
        pair_links mkHash refines pa1 pa2 ∪ pair_links mkHash refines pa2 pa1 := by
  have hbnew : pa_batch_iter mkHash batchSize db1 (some ((pa2.map mkHash).toFinset)) =
      batch_iter batchSize pa2 := by
    simp only [pa_batch_iter]
    congr 1
    rw [hpa, List.filter_append]
    have e1 : pa1.filter (fun k => decide (mkHash k ∈ (pa2.map mkHash).toFinset)) = [] := by
      rw [List.filter_eq_nil_iff]
      intro a ha
      simp only [decide_eq_true_eq, List.mem_toFinset]
      exact fun hmem => hdisj (mkHash a) hmem (List.mem_map.mpr ⟨a, ha, rfl⟩)
    have e2 : pa2.filter (fun k => decide (mkHash k ∈ (pa2.map mkHash).toFinset)) = pa2 := by
      rw [List.filter_eq_self]
      intro a ha
      simp only [decide_eq_true_eq, List.mem_toFinset]
      exact List.mem_map.mpr ⟨a, ha, rfl⟩
    rw [e1, e2, List.nil_append]
  have hbold : pa_batch_iter mkHash batchSize db1 (some ((pa1.map mkHash).toFinset)) =
      batch_iter batchSize pa1 := by
    simp only [pa_batch_iter]
    congr 1
    rw [hpa, List.filter_append]
    have e1 : pa1.filter (fun k => decide (mkHash k ∈ (pa1.map mkHash).toFinset)) = pa1 := by
      rw [List.filter_eq_self]
      intro a ha
      simp only [decide_eq_true_eq, List.mem_toFinset]
      exact List.mem_map.mpr ⟨a, ha, rfl⟩
    have e2 : pa2.filter (fun k => decide (mkHash k ∈ (pa1.map mkHash).toFinset)) = [] := by
      rw [List.filter_eq_nil_iff]
      intro a ha
      simp only [decide_eq_true_eq, List.mem_toFinset]
      exact fun hmem => hdisj (mkHash a) (List.mem_map.mpr ⟨a, ha, rfl⟩) hmem
    rw [e1, e2, List.append_nil]
  have hothers : ∀ npa : List Nat,
      pa_batch_iter mkHash batchSize db1
          (some ((pa2.map mkHash).toFinset \ (npa.map mkHash).toFinset)) =
        batch_iter batchSize
          (pa2.filter fun k => decide (mkHash k ∉ (npa.map mkHash).toFinset)) := by
    intro npa
    simp only [pa_batch_iter]
    congr 1
    rw [hpa, List.filter_append]
    have e1 : pa1.filter
        (fun k => decide (mkHash k ∈ (pa2.map mkHash).toFinset \ (npa.map mkHash).toFinset)) =
        [] := by
      rw [List.filter_eq_nil_iff]
      intro a ha
      simp only [decide_eq_true_eq, Finset.mem_sdiff, List.mem_toFinset, not_and]
      exact fun hmem => absurd (hdisj (mkHash a) hmem (List.mem_map.mpr ⟨a, ha, rfl⟩)) not_false
    have e2 : pa2.filter
        (fun k => decide (mkHash k ∈ (pa2.map mkHash).toFinset \ (npa.map mkHash).toFinset)) =
        pa2.filter fun k => decide (mkHash k ∉ (npa.map mkHash).toFinset) := by
      apply List.filter_congr
      intro a ha
      simp only [decide_eq_decide, Finset.mem_sdiff, List.mem_toFinset]
      exact and_iff_right (List.mem_map.mpr ⟨a, ha, rfl⟩)
    rw [e1, e2, List.nil_append]
  have hflat2 : (batch_iter batchSize pa2).flatten = pa2 := batch_iter_flatten _ _
  have hflat1 : (batch_iter batchSize pa1).flatten = pa1 := batch_iter_flatten _ _
  have hmem2 : ∀ b ∈ batch_iter batchSize pa2, ∀ x ∈ b, x ∈ pa2 := by
    intro b hb x hx
    rw [← hflat2]
    exact List.mem_flatten.mpr ⟨b, hb, hx⟩
  have hmem1 : ∀ b ∈ batch_iter batchSize pa1, ∀ x ∈ b, x ∈ pa1 := by
    intro b hb x hx
    rw [← hflat1]
    exact List.mem_flatten.mpr ⟨b, hb, hx⟩
  have hnd2 : (((batch_iter batchSize pa2).flatten).map mkHash).Nodup := by
    rwa [hflat2]
  have hapart := nodup_map_flatten_apart hnd2
  ext p
  rw [supplement_links, mem_foldr_union, Finset.mem_union, Finset.mem_union]
  constructor
  · rintro ⟨s, hs, hps⟩
    obtain ⟨npa, hnpa, hs⟩ := List.mem_flatMap.mp hs
    rw [hbnew] at hnpa
    obtain ⟨i, hi, hgi⟩ := (mem_getD_iff (α := List Nat) []).mp hnpa
    rcases List.mem_cons.mp hs with rfl | hs2
    · refine Or.inl (Or.inl ?_)
      rw [← hflat2]
      exact (mem_gsl_flatten mkHash refines).mpr (Or.inl ⟨i, hi, by rwa [hgi]⟩)
    rcases List.mem_append.mp hs2 with hs3 | hs3
    · obtain ⟨diffb, hdiffb, rfl⟩ := List.mem_map.mp hs3
      rw [hothers npa] at hdiffb
      rw [get_support_links_split, Finset.mem_union] at hps
      have hdmem : ∀ x ∈ diffb, x ∈ pa2 ∧ mkHash x ∉ npa.map mkHash := by
        intro x hx
        have hxf : x ∈ pa2.filter fun k => decide (mkHash k ∉ (npa.map mkHash).toFinset) := by
          rw [← batch_iter_flatten batchSize
            (pa2.filter fun k => decide (mkHash k ∉ (npa.map mkHash).toFinset))]
          exact List.mem_flatten.mpr ⟨diffb, hdiffb, hx⟩
        have := List.mem_filter.mp hxf
        refine ⟨this.1, ?_⟩
        have h3 := this.2
        simp only [decide_eq_true_eq, List.mem_toFinset] at h3
        exact h3
      refine Or.inl (Or.inl ?_)
      rw [← hflat2]
      apply (mem_gsl_flatten mkHash refines).mpr
      refine Or.inr ?_
      rcases hps with hps | hps
      · obtain ⟨a, ha, c, hc, hr, hpe⟩ := mem_pair_links mkHash refines |>.mp hps
        have hc2 : c ∈ pa2 := (hdmem c hc).1
        obtain ⟨bj, hbj, hcbj⟩ := List.mem_flatten.mp (by rwa [hflat2])
        obtain ⟨j, hj, hgj⟩ := (mem_getD_iff (α := List Nat) []).mp hbj
        have hij : i ≠ j := by
          rintro rfl
          exact (hdmem c hc).2 (List.mem_map.mpr ⟨c, by rwa [← hgj, hgi] at hcbj, rfl⟩)
        exact ⟨i, j, hi, hj, hij, mem_pair_links mkHash refines |>.mpr
          ⟨a, by rwa [hgi], c, by rwa [hgj], hr, hpe⟩⟩
      · obtain ⟨c, hc, a, ha, hr, hpe⟩ := mem_pair_links mkHash refines |>.mp hps
        have hc2 : c ∈ pa2 := (hdmem c hc).1
        obtain ⟨bj, hbj, hcbj⟩ := List.mem_flatten.mp (by rwa [hflat2])
        obtain ⟨j, hj, hgj⟩ := (mem_getD_iff (α := List Nat) []).mp hbj
        have hij : j ≠ i := by
          rintro rfl
          exact (hdmem c hc).2 (List.mem_map.mpr ⟨c, by rwa [← hgj, hgi] at hcbj, rfl⟩)
        exact ⟨j, i, hj, hi, hij, mem_pair_links mkHash refines |>.mpr
          ⟨c, by rwa [hgj], a, by rwa [hgi], hr, hpe⟩⟩
    · obtain ⟨opa, hopa, rfl⟩ := List.mem_map.mp hs3
      rw [hbold] at hopa
      rw [get_support_links_split, Finset.mem_union] at hps
      rcases hps with hps | hps
      · exact Or.inr (pair_links_mono mkHash refines (hmem2 npa hnpa) (hmem1 opa hopa) hps)
      · exact Or.inl (Or.inr (pair_links_mono mkHash refines (hmem1 opa hopa)
          (hmem2 npa hnpa) hps))
  · rintro ((hp | hp) | hp)
    · rw [← hflat2] at hp
      rcases mem_gsl_flatten mkHash refines |>.mp hp with ⟨i, hi, hw⟩ | ⟨i, j, hi, hj, hij, hc⟩
      · refine ⟨get_support_links mkHash refines ((batch_iter batchSize pa2).getD i []) none,
          ?_, hw⟩
        apply List.mem_flatMap.mpr
        refine ⟨(batch_iter batchSize pa2).getD i [], by rw [hbnew]; exact getD_mem [] hi, ?_⟩
        exact List.mem_cons_self _ _
      · obtain ⟨a, ha, c, hc2, hr, hpe⟩ := mem_pair_links mkHash refines |>.mp hc
        set npa := (batch_iter batchSize pa2).getD i [] with hnpadef
        have hnpa : npa ∈ batch_iter batchSize pa2 := getD_mem [] hi
        have hcp : c ∈ pa2 := by
          rw [← hflat2]
          exact List.mem_flatten.mpr ⟨_, getD_mem [] hj, hc2⟩
        have hcnot : mkHash c ∉ (npa.map mkHash).toFinset := by
          rw [List.mem_toFinset]
          intro hmem
          obtain ⟨x, hx, hxe⟩ := List.mem_map.mp hmem
          exact hapart i j hi hj hij x hx c hc2 hxe
        have hcf : c ∈ pa2.filter fun k => decide (mkHash k ∉ (npa.map mkHash).toFinset) := by
          rw [List.mem_filter]
          exact ⟨hcp, by simpa using hcnot⟩
        rw [← batch_iter_flatten batchSize
          (pa2.filter fun k => decide (mkHash k ∉ (npa.map mkHash).toFinset))] at hcf
        obtain ⟨diffb, hdiffb, hcd⟩ := List.mem_flatten.mp hcf
        refine ⟨get_support_links mkHash refines (npa ++ diffb) (some npa.length), ?_, ?_⟩
        · apply List.mem_flatMap.mpr
          refine ⟨npa, by rw [hbnew]; exact hnpa, ?_⟩
          apply List.mem_cons.mpr
          refine Or.inr (List.mem_append.mpr (Or.inl ?_))
          apply List.mem_map.mpr
          exact ⟨diffb, by rw [hothers npa]; exact hdiffb, rfl⟩
        · rw [get_support_links_split, Finset.mem_union]
          exact Or.inl (mem_pair_links mkHash refines |>.mpr ⟨a, ha, c, hcd, hr, hpe⟩)
    · obtain ⟨a, ha, c, hc, hr, hpe⟩ := mem_pair_links mkHash refines |>.mp hp
      rw [← hflat1] at ha
      obtain ⟨opa, hopa, hao⟩ := List.mem_flatten.mp ha
      rw [← hflat2] at hc
      obtain ⟨npa, hnpa, hcn⟩ := List.mem_flatten.mp hc
      refine ⟨get_support_links mkHash refines (npa ++ opa) (some npa.length), ?_, ?_⟩
      · apply List.mem_flatMap.mpr
        refine ⟨npa, by rw [hbnew]; exact hnpa, ?_⟩
        apply List.mem_cons.mpr
        refine Or.inr (List.mem_append.mpr (Or.inr ?_))
        apply List.mem_map.mpr
        exact ⟨opa, by rw [hbold]; exact hopa, rfl⟩
      · rw [get_support_links_split, Finset.mem_union]
        exact Or.inr (mem_pair_links mkHash refines |>.mpr ⟨a, hao, c, hcn, hr, hpe⟩)
    · obtain ⟨a, ha, c, hc, hr, hpe⟩ := mem_pair_links mkHash refines |>.mp hp
      rw [← hflat2] at ha
      obtain ⟨npa, hnpa, han⟩ := List.mem_flatten.mp ha
      rw [← hflat1] at hc
      obtain ⟨opa, hopa, hco⟩ := List.mem_flatten.mp hc
      refine ⟨get_support_links mkHash refines (npa ++ opa) (some npa.length), ?_, ?_⟩
      · apply List.mem_flatMap.mpr
        refine ⟨npa, by rw [hbnew]; exact hnpa, ?_⟩
        apply List.mem_cons.mpr
        refine Or.inr (List.mem_append.mpr (Or.inr ?_))
        apply List.mem_map.mpr
        exact ⟨opa, by rw [hbold]; exact hopa, rfl⟩
      · rw [get_support_links_split, Finset.mem_union]
        exact Or.inl (mem_pair_links mkHash refines |>.mpr ⟨a, han, c, hco, hr, hpe⟩)

/-- Closed form of an initial (non-continuing) corpus build on a fresh
store: the pa table receives the guard-filtered representative keys, the
evidence table the full evidence-link set, and the support-link table the
untiled link search over the pa table. -/
theorem create_corpus_body_fresh (batchSize : Nat) (raws : List Raw) :
    create_corpus_body mkHash refines batchSize false ⟨raws, [], ∅, ∅, []⟩ =
      (⟨raws, guarded_keys mkHash ∅ (raws.map Raw.key), evidence_links mkHash raws,
        get_support_links mkHash refines (guarded_keys mkHash ∅ (raws.map Raw.key)) none,
        []⟩, some true) := by
  have hfilter : raws.filter (fun r => decide (r.uuid ∈ (raws.map Raw.uuid).toFinset)) =
      raws := by
    rw [List.filter_eq_self]
    intro a ha
    simp only [decide_eq_true_eq, List.mem_toFinset]
    exact List.mem_map.mpr ⟨a, ha, rfl⟩
  have hgus : (get_unique_statements mkHash batchSize ⟨raws, [], ∅, ∅, []⟩ raws ∅).1 =
      ⟨raws, guarded_keys mkHash ∅ (raws.map Raw.key), evidence_links mkHash raws, ∅, []⟩ := by
    rw [get_unique_statements, get_unique_statements_on_eq, batch_iter_flatten]
    simp
  have htile : ∀ ks : List Nat,
      tile_support_links mkHash refines (batch_iter batchSize ks) =
        get_support_links mkHash refines ks none := by
    intro ks
    rw [tile_support_links_eq_flatten, batch_iter_flatten]
  rw [create_corpus_body]
  rw [if_neg (by simp)]
  simp only [Bool.false_eq_true, if_false, distill_stmts]
  by_cases hr : raws = []
  · subst hr
    rw [if_neg (by simp)]
    simp [pa_batch_iter, batch_iter_nil, evidence_links, guarded_keys, get_support_links,
      tile_support_links]
  · have hne : ((raws.map Raw.uuid).toFinset : Finset Nat) ≠ ∅ := by
      cases raws with
      | nil => exact absurd rfl hr
      | cons r rest => simp
    rw [if_pos hne, hfilter, hgus]
    simp only [pa_batch_iter]
    rw [htile]
    simp

theorem create_corpus_fresh (batchSize : Nat) (raws : List Raw) (t : Nat) :
    create_corpus mkHash refines batchSize false t ⟨raws, [], ∅, ∅, []⟩ =
      (⟨raws, guarded_keys mkHash ∅ (raws.map Raw.key), evidence_links mkHash raws,
        get_support_links mkHash refines (guarded_keys mkHash ∅ (raws.map Raw.key)) none,
        [(true, t)]⟩, some true) := by
  rw [create_corpus, handle_update_table, create_corpus_body_fresh]
  rfl

/-- Closed form of an incremental update run on the state left by an initial
build on R1, after the raw table has been extended with R2: the pa and
evidence tables advance exactly as if R1 ++ R2 had been deduplicated in one
run, and the support-link table gains the within-new links and the old/new
cross links. -/
theorem supplement_corpus_after_create (batchSize : Nat) (R1 R2 : List Raw)
    (sup0 : Finset (Nat × Nat)) (upd : List (Bool × Nat)) (t : Nat)
    (hU : ((R1 ++ R2).map Raw.uuid).Nodup) :
    supplement_corpus mkHash refines batchSize t
        ⟨R1 ++ R2, guarded_keys mkHash ∅ (R1.map Raw.key),
          evidence_links mkHash R1, sup0, upd⟩ =
      (⟨R1 ++ R2, guarded_keys mkHash ∅ ((R1 ++ R2).map Raw.key),
        evidence_links mkHash (R1 ++ R2),
        sup0 ∪
          (get_support_links mkHash refines
              (guarded_keys mkHash ((R1.map Raw.key).map mkHash).toFinset
                (R2.map Raw.key)) none ∪
            pair_links mkHash refines (guarded_keys mkHash ∅ (R1.map Raw.key))
              (guarded_keys mkHash ((R1.map Raw.key).map mkHash).toFinset
                (R2.map Raw.key)) ∪
            pair_links mkHash refines
              (guarded_keys mkHash ((R1.map Raw.key).map mkHash).toFinset
                (R2.map Raw.key))
              (guarded_keys mkHash ∅ (R1.map Raw.key))),
        upd ++ [(false, t)]⟩, some true) := by
  have hU1 : (R1.map Raw.uuid).Nodup := by
    rw [List.map_append] at hU
    exact hU.of_append_left
  have hU2 : (R2.map Raw.uuid).Nodup := by
    rw [List.map_append] at hU
    exact hU.of_append_right
  have hUd : ∀ u ∈ R1.map Raw.uuid, u ∉ R2.map Raw.uuid := by
    rw [List.map_append] at hU
    intro u hu1 hu2
    exact (List.disjoint_of_nodup_append hU) hu1 hu2
  have f1 : ((guarded_keys mkHash ∅ (R1.map Raw.key)).map mkHash).toFinset =
      ((R1.map Raw.key).map mkHash).toFinset := by
    rw [guarded_keys_hashes]
    simp
  have hids : ((R1 ++ R2).map Raw.uuid).toFinset \ (R1.map Raw.uuid).toFinset ∩
        (((R1 ++ R2).map Raw.uuid).toFinset) = (R2.map Raw.uuid).toFinset := by
    ext u
    simp only [Finset.mem_inter, Finset.mem_sdiff, List.mem_toFinset, List.map_append,
      List.mem_append]
    constructor
    · rintro ⟨⟨h1 | h1, h2⟩, _⟩
      · exact absurd h1 h2
      · exact h1
    · intro h
      exact ⟨⟨Or.inr h, fun h2 => hUd u h2 h⟩, Or.inr h⟩
  have hfilt : (R1 ++ R2).filter (fun r => decide (r.uuid ∈ (R2.map Raw.uuid).toFinset)) =
      R2 := by
    rw [List.filter_append]
    have e1 : R1.filter (fun r => decide (r.uuid ∈ (R2.map Raw.uuid).toFinset)) = [] := by
      rw [List.filter_eq_nil_iff]
      intro a ha
      simp only [decide_eq_true_eq, List.mem_toFinset]
      exact hUd a.uuid (List.mem_map.mpr ⟨a, ha, rfl⟩)
    have e2 : R2.filter (fun r => decide (r.uuid ∈ (R2.map Raw.uuid).toFinset)) = R2 := by
      rw [List.filter_eq_self]
      intro a ha
      simp only [decide_eq_true_eq, List.mem_toFinset]
      exact List.mem_map.mpr ⟨a, ha, rfl⟩
    rw [e1, e2, List.nil_append]
  have hpa2nd := guarded_keys_nodup mkHash (R2.map Raw.key)
    (((R1.map Raw.key).map mkHash).toFinset)
  have hsup := supplement_links_eq mkHash refines batchSize
    ⟨R1 ++ R2, guarded_keys mkHash ∅ (R1.map Raw.key) ++
        guarded_keys mkHash ((R1.map Raw.key).map mkHash).toFinset (R2.map Raw.key),
      evidence_links mkHash (R1 ++ R2), sup0, upd⟩
    (guarded_keys mkHash ∅ (R1.map Raw.key))
    (guarded_keys mkHash ((R1.map Raw.key).map mkHash).toFinset (R2.map Raw.key))
    rfl hpa2nd.1
    (by
      intro h hh2 hh1
      have h2 := hpa2nd.2 h hh2
      rw [← f1] at h2
      exact h2 (List.mem_toFinset.mpr hh1))
  rw [supplement_corpus, handle_update_table, supplement_corpus_body]
  simp only [evidence_links_snd, distill_stmts]
  rw [hids, hfilt]
  rw [get_unique_statements, get_unique_statements_on_eq, batch_iter_flatten]
  simp only [Finset.union_empty, Finset.empty_union, f1]
  rw [← evidence_links_append]
  rw [f1] at hsup
  rw [hsup]
  have hpa : guarded_keys mkHash ∅ ((R1 ++ R2).map Raw.key) =
      guarded_keys mkHash ∅ (R1.map Raw.key) ++
        guarded_keys mkHash ((R1.map Raw.key).map mkHash).toFinset (R2.map Raw.key) := by
    rw [List.map_append, guarded_keys_append, Finset.empty_union]
  rw [if_pos trivial, hpa]

/-- C1: for any raw statement set split into R1 and R2 (raw ids globally
unique), running create_corpus on R1 and then supplement_corpus after the raw
table has been extended with R2 produces exactly the same final
UniqueStatement table, EvidenceLink set and SupportLink set as a single
create_corpus run on R1 ++ R2. -/
theorem claim_C1 (mkHash : Nat → Nat) (refines : Nat → Nat → Bool) (batchSize : Nat)
    (R1 R2 : List Raw) (t1 t2 t3 : Nat)
    (hU : ((R1 ++ R2).map Raw.uuid).Nodup) :
    (supplement_corpus mkHash refines batchSize t3
        {(create_corpus mkHash refines batchSize false t2 ⟨R1, [], ∅, ∅, []⟩).1 with
          raw := R1 ++ R2}).1.pa =
      (create_corpus mkHash refines batchSize false t1 ⟨R1 ++ R2, [], ∅, ∅, []⟩).1.pa ∧
    (supplement_corpus mkHash refines batchSize t3
        {(create_corpus mkHash refines batchSize false t2 ⟨R1, [], ∅, ∅, []⟩).1 with
          raw := R1 ++ R2}).1.ev_links =
      (create_corpus mkHash refines batchSize false t1 ⟨R1 ++ R2, [], ∅, ∅, []⟩).1.ev_links ∧
    (supplement_corpus mkHash refines batchSize t3
        {(create_corpus mkHash refines batchSize false t2 ⟨R1, [], ∅, ∅, []⟩).1 with
          raw := R1 ++ R2}).1.sup_links =
      (create_corpus mkHash refines batchSize false t1 ⟨R1 ++ R2, [], ∅, ∅, []⟩).1.sup_links := by
  rw [create_corpus_fresh mkHash refines batchSize R1 t2,
    create_corpus_fresh mkHash refines batchSize (R1 ++ R2) t1]
  have harg : ({((⟨R1, guarded_keys mkHash ∅ (R1.map Raw.key), evidence_links mkHash R1,
        get_support_links mkHash refines (guarded_keys mkHash ∅ (R1.map Raw.key)) none,
        [(true, t2)]⟩ : DBState), some true).1 with raw := R1 ++ R2} : DBState) =
      ⟨R1 ++ R2, guarded_keys mkHash ∅ (R1.map Raw.key), evidence_links mkHash R1,
        get_support_links mkHash refines (guarded_keys mkHash ∅ (R1.map Raw.key)) none,
        [(true, t2)]⟩ := rfl
  rw [harg, supplement_corpus_after_create mkHash refines batchSize R1 R2 _ _ t3 hU]
  refine ⟨rfl, rfl, ?_⟩
  have hsplit : guarded_keys mkHash ∅ ((R1 ++ R2).map Raw.key) =
      guarded_keys mkHash ∅ (R1.map Raw.key) ++
        guarded_keys mkHash ((R1.map Raw.key).map mkHash).toFinset (R2.map Raw.key) := by
    rw [List.map_append, guarded_keys_append, Finset.empty_union]
  show _ = (⟨R1 ++ R2, guarded_keys mkHash ∅ ((R1 ++ R2).map Raw.key),
      evidence_links mkHash (R1 ++ R2),
      get_support_links mkHash refines (guarded_keys mkHash ∅ ((R1 ++ R2).map Raw.key)) none,
      [(true, t1)]⟩ : DBState).sup_links
  show get_support_links mkHash refines (guarded_keys mkHash ∅ (R1.map Raw.key)) none ∪ _ = _
  rw [hsplit, get_support_links_none_append]
  ext p
  simp only [Finset.mem_union]
  tauto

/-- C1 witness: a concrete two-statement split on which the incremental path
and the one-shot path agree, with batch size 1 so that real batching occurs. -/
theorem claim_C1_witness :
    (((([⟨0, 10⟩, ⟨1, 11⟩] : List Raw) ++ ([⟨2, 12⟩] : List Raw)).map Raw.uuid).Nodup) ∧
      ((supplement_corpus (fun k => k) (fun a b => decide (a < b)) 1 7
          {(create_corpus (fun k => k) (fun a b => decide (a < b)) 1 false 5
              (⟨[⟨0, 10⟩, ⟨1, 11⟩], [], ∅, ∅, []⟩ : DBState)).1 with
            raw := ([⟨0, 10⟩, ⟨1, 11⟩] : List Raw) ++ ([⟨2, 12⟩] : List Raw)}).1.pa =
        (create_corpus (fun k => k) (fun a b => decide (a < b)) 1 false 6
          (⟨([⟨0, 10⟩, ⟨1, 11⟩] : List Raw) ++ ([⟨2, 12⟩] : List Raw), [], ∅, ∅, []⟩ :
            DBState)).1.pa) :=
  ⟨by decide,
    (claim_C1 (fun k => k) (fun a b => decide (a < b)) 1 [⟨0, 10⟩, ⟨1, 11⟩] [⟨2, 12⟩]
      6 5 7 (by decide)).1⟩

/-- C2: tiling correctness.  For every list of unique-statement batches, the
union over all ordered batch pairs (i, j) with i distinct from j of the links
found on batch j ++ batch i with split index equal to the length of batch j,
together with the links found on each batch alone with no split, equals the
links found by one call on the concatenation of all batches with no split
index. -/
theorem claim_C2 (mkHash : Nat → Nat) (refines : Nat → Nat → Bool) (BS : List (List Nat)) :
    tile_support_links mkHash refines BS =
      get_support_links mkHash refines BS.flatten none :=
  tile_support_links_eq_flatten mkHash refines BS

/-- C3: batch-invariance of the Deduplicator.  Feeding the same statement
sequence through the batch loop under any two chunkings, with the same
initial done set, yields the same new-hash set and the same evidence-link
table (and in fact the same unique-statement table). -/
theorem claim_C3 (mkHash : Nat → Nat) (mk_done : Finset Nat) (db : DBState)
    (BS1 BS2 : List (List Raw)) (h : BS1.flatten = BS2.flatten) :
    (get_unique_statements_on mkHash mk_done BS1 db ∅).2 =
      (get_unique_statements_on mkHash mk_done BS2 db ∅).2 ∧
    (get_unique_statements_on mkHash mk_done BS1 db ∅).1.ev_links =
      (get_unique_statements_on mkHash mk_done BS2 db ∅).1.ev_links ∧
    (get_unique_statements_on mkHash mk_done BS1 db ∅).1.pa =
      (get_unique_statements_on mkHash mk_done BS2 db ∅).1.pa := by
  rw [get_unique_statements_on_eq, get_unique_statements_on_eq, h]
  exact ⟨rfl, rfl, rfl⟩

/-- C3 witness: chunking two raw statements as one batch or as two
singleton batches produces identical results. -/
theorem claim_C3_witness :
    (([[⟨0, 5⟩, ⟨1, 6⟩]] : List (List Raw)).flatten =
        ([[⟨0, 5⟩], [⟨1, 6⟩]] : List (List Raw)).flatten) ∧
      (get_unique_statements_on (fun k => k) ∅ [[⟨0, 5⟩, ⟨1, 6⟩]] ⟨[], [], ∅, ∅, []⟩ ∅).2 =
        (get_unique_statements_on (fun k => k) ∅ [[⟨0, 5⟩], [⟨1, 6⟩]] ⟨[], [], ∅, ∅, []⟩ ∅).2 :=
  ⟨by decide,
    (claim_C3 (fun k => k) ∅ ⟨[], [], ∅, ∅, []⟩ [[⟨0, 5⟩, ⟨1, 6⟩]] [[⟨0, 5⟩], [⟨1, 6⟩]]
      (by decide)).1⟩

/-- C4: idempotent re-deduplication.  Feeding the same chunk through the
batch loop a second time against the same done set changes nothing: the
second pass adds no new hash (so the unique-statement table does not grow)
and the persisted evidence-link set is the one already produced by the first
pass. -/
theorem claim_C4 (mkHash : Nat → Nat) (mk_done : Finset Nat) (db : DBState)
    (chunk : List Raw) :
    get_unique_statements_on mkHash mk_done [chunk, chunk] db ∅ =
      get_unique_statements_on mkHash mk_done [chunk] db ∅ := by
  rw [get_unique_statements_on_eq, get_unique_statements_on_eq]
  have hflat1 : ([chunk, chunk] : List (List Raw)).flatten = chunk ++ chunk := by simp
  have hflat2 : ([chunk] : List (List Raw)).flatten = chunk := by simp
  rw [hflat1, hflat2]
  have hg : guarded_keys mkHash (mk_done ∪ ∅) ((chunk ++ chunk).map Raw.key) =
      guarded_keys mkHash (mk_done ∪ ∅) (chunk.map Raw.key) := by
    rw [List.map_append, guarded_keys_append]
    have hnil : guarded_keys mkHash
        ((mk_done ∪ ∅) ∪ ((chunk.map Raw.key).map mkHash).toFinset)
        (chunk.map Raw.key) = [] := by
      rw [guarded_keys_all_known]
      intro k hk
      exact Finset.mem_union_right _ (List.mem_toFinset.mpr (List.mem_map.mpr ⟨k, hk, rfl⟩))
    rw [hnil, List.append_nil]
  have hev : evidence_links mkHash (chunk ++ chunk) = evidence_links mkHash chunk := by
    rw [evidence_links_append, Finset.union_self]
  rw [hg, hev]

/-- C5: evidence is emitted regardless of hash newness.  One pass of the
deduplication batch loop always persists the chunk's full evidence-link set
— every group member is linked to its representative's hash even when that
hash is already known — while the unique-statement table only receives
statements whose hash is new relative to the done set and the hashes already
seen this call. -/
theorem claim_C5 (mkHash : Nat → Nat) (mk_done new_mk : Finset Nat) (db : DBState)
    (chunk : List Raw) :
    (proc_batch mkHash mk_done db new_mk chunk).1.ev_links =
        db.ev_links ∪ evidence_links mkHash chunk ∧
      (∀ r ∈ chunk, (mkHash r.key, r.uuid) ∈ (proc_batch mkHash mk_done db new_mk chunk).1.ev_links) ∧
      (∀ k ∈ (proc_batch mkHash mk_done db new_mk chunk).1.pa,
        k ∈ db.pa ∨ mkHash k ∉ mk_done ∪ new_mk) := by
  have hstep : (proc_batch mkHash mk_done db new_mk chunk).1 =
      {db with
        pa := db.pa ++ guarded_keys mkHash (mk_done ∪ new_mk) (chunk.map Raw.key),
        ev_links := db.ev_links ∪ evidence_links mkHash chunk} := by
    rw [proc_batch, make_unique_statement_set]
    simp only
    rw [dedupe_new_eq, guarded_keys_unique_keys mkHash chunk ∅ (mk_done ∪ new_mk) (by simp)]
  rw [hstep]
  refine ⟨rfl, ?_, ?_⟩
  · intro r hr
    exact Finset.mem_union_right _
      (List.mem_toFinset.mpr (List.mem_map.mpr ⟨r, hr, rfl⟩))
  · intro k hk
    rcases List.mem_append.mp hk with hk | hk
    · exact Or.inl hk
    · right
      have := (guarded_keys_nodup mkHash (chunk.map Raw.key) (mk_done ∪ new_mk)).2
      exact this (mkHash k) (List.mem_map.mpr ⟨k, hk, rfl⟩)

/-- C5 witness: a chunk whose only statement re-derives an already known
hash (3 is in the done set): its evidence link is still persisted, and a
fresh-hash chunk statement is only inserted because its hash is new. -/
theorem claim_C5_witness :
    ((3 : Nat), (7 : Nat)) ∈
      (proc_batch (fun k => k) ({3} : Finset Nat) (⟨[], [], ∅, ∅, []⟩ : DBState)
        (∅ : Finset Nat) ([⟨7, 3⟩] : List Raw)).1.ev_links :=
  (claim_C5 (fun k => k) ({3} : Finset Nat) (∅ : Finset Nat) (⟨[], [], ∅, ∅, []⟩ : DBState)
    ([⟨7, 3⟩] : List Raw)).2.1 ⟨7, 3⟩ (by decide)

theorem handle_update_table_pa (flag : Bool) (func : DBState → DBState × Option Bool)
    (t : Nat) (db : DBState) :
    (handle_update_table flag func t db).1.pa = (func db).1.pa := by
  rw [handle_update_table]
  rcases h : (func db).2 with _ | c
  · simp [h]
  · cases c <;> simp [h]

theorem handle_update_table_sup (flag : Bool) (func : DBState → DBState × Option Bool)
    (t : Nat) (db : DBState) :
    (handle_update_table flag func t db).1.sup_links = (func db).1.sup_links := by
  rw [handle_update_table]
  rcases h : (func db).2 with _ | c
  · simp [h]
  · cases c <;> simp [h]

/-- A continuing create_corpus run on a store whose preassembled hashes are
pairwise distinct and all covered by persisted evidence links never inserts
a second row for an existing hash: the pa hash list stays duplicate-free. -/
theorem create_corpus_continue_nodup (batchSize : Nat) (db : DBState)
    (hnd : (db.pa.map mkHash).Nodup)
    (hcover : ∀ h ∈ db.pa.map mkHash, h ∈ db.ev_links.image Prod.fst) :
    (((create_corpus_body mkHash refines batchSize true db).1.pa).map mkHash).Nodup := by
  rw [create_corpus_body]
  by_cases hev : db.ev_links = ∅
  · rw [if_pos ⟨rfl, hev⟩]
    exact hnd
  · rw [if_neg (by simp [hev])]
    simp only [if_true]
    by_cases hids : (distill_stmts db \ db.ev_links.image Prod.snd : Finset Nat) ≠ ∅
    · rw [if_pos hids]
      rw [get_unique_statements, get_unique_statements_on_eq, batch_iter_flatten]
      simp only [Finset.union_empty, List.map_append]
      apply List.Nodup.append hnd
        (guarded_keys_nodup mkHash _ (db.ev_links.image Prod.fst)).1
      intro h hh1 hh2
      exact (guarded_keys_nodup mkHash _ (db.ev_links.image Prod.fst)).2 h hh2 (hcover h hh1)
    · rw [if_neg hids]
      exact hnd

/-- C6: the ledger decorator appends exactly one UpdateRecord when and only
when the wrapped run returns a truthy completion value — a falsy return or
an unhandled exception (the failure result none) leaves the ledger untouched
— it passes the completion value through, and the record's corpus_init flag
is true exactly for create_corpus (which is the decorator instantiated with
flag true) and false for supplement_corpus (flag false). -/
theorem claim_C6 (flag : Bool) (func : DBState → DBState × Option Bool) (t : Nat)
    (db : DBState) (mkHash : Nat → Nat) (refines : Nat → Nat → Bool) (batchSize : Nat)
    (continuing : Bool) :
    ((handle_update_table flag func t db).1.updates =
        if (func db).2 = some true then (func db).1.updates ++ [(flag, t)]
        else (func db).1.updates) ∧
      (handle_update_table flag func t db).2 = (func db).2 ∧
      create_corpus mkHash refines batchSize continuing t db =
        handle_update_table true (create_corpus_body mkHash refines batchSize continuing)
          t db ∧
      supplement_corpus mkHash refines batchSize t db =
        handle_update_table false (supplement_corpus_body mkHash refines batchSize) t db := by
  refine ⟨?_, ?_, rfl, rfl⟩
  · rw [handle_update_table]
    rcases h : (func db).2 with _ | c
    · simp [h]
    · cases c <;> simp [h]
  · rw [handle_update_table]
    rcases h : (func db).2 with _ | c
    · simp [h]
    · cases c <;> simp [h]

/-- C9: supplement_corpus deduplicates exactly the raw statements whose id is
in the distilled raw id set and has no existing EvidenceLink row — its body
equals the same computation with the new-id selection replaced by the filter
"distilled and unlinked" — and a raw statement already linked in a prior run
is never in the deduplicated stream. -/
theorem claim_C9 (mkHash : Nat → Nat) (refines : Nat → Nat → Bool) (batchSize : Nat)
    (db : DBState) :
    (supplement_corpus_body mkHash refines batchSize db =
      (let new_stmts := db.raw.filter fun r =>
        decide (r.uuid ∈ distill_stmts db) && !decide (r.uuid ∈ db.ev_links.image Prod.snd)
       let old_mk := (db.pa.map mkHash).toFinset
       let s := get_unique_statements mkHash batchSize db new_stmts old_mk
       ({s.1 with sup_links := s.1.sup_links ∪
          supplement_links mkHash refines batchSize s.1 s.2 old_mk}, some true))) ∧
    ∀ r ∈ db.raw, r.uuid ∈ db.ev_links.image Prod.snd →
      r ∉ db.raw.filter fun r2 =>
        decide (r2.uuid ∈ ((db.raw.map Raw.uuid).toFinset \ db.ev_links.image Prod.snd) ∩
          distill_stmts db) := by
  have hfe : (db.raw.filter fun r =>
      decide (r.uuid ∈ ((db.raw.map Raw.uuid).toFinset \ db.ev_links.image Prod.snd) ∩
        distill_stmts db)) =
      db.raw.filter fun r =>
        decide (r.uuid ∈ distill_stmts db) && !decide (r.uuid ∈ db.ev_links.image Prod.snd) := by
    apply List.filter_congr
    intro a ha
    have hmem : a.uuid ∈ db.raw.map Raw.uuid := List.mem_map.mpr ⟨a, ha, rfl⟩
    simp only [Finset.mem_inter, Finset.mem_sdiff, List.mem_toFinset]
    rw [← decide_not, ← Bool.decide_and, decide_eq_decide]
    tauto
  constructor
  · rw [supplement_corpus_body]
    simp only [distill_stmts] at hfe ⊢
    rw [hfe]
  · intro r hr hlinked
    intro hmem
    have := List.mem_filter.mp hmem
    simp only [Finset.mem_inter, Finset.mem_sdiff, decide_eq_true_eq] at this
    exact this.2.1.2 hlinked

/-- C9 witness: a raw statement that already carries an evidence link is not
selected by the new-statement filter of supplement_corpus. -/
theorem claim_C9_witness :
    (⟨0, 5⟩ : Raw) ∉ (⟨[⟨0, 5⟩], [5], {(5, 0)}, ∅, []⟩ : DBState).raw.filter fun r2 =>
      decide (r2.uuid ∈
        (((⟨[⟨0, 5⟩], [5], {(5, 0)}, ∅, []⟩ : DBState).raw.map Raw.uuid).toFinset \
          (⟨[⟨0, 5⟩], [5], {(5, 0)}, ∅, []⟩ : DBState).ev_links.image Prod.snd) ∩
        distill_stmts (⟨[⟨0, 5⟩], [5], {(5, 0)}, ∅, []⟩ : DBState)) :=
  (claim_C9 (fun k => k) (fun _ _ => false) 1 (⟨[⟨0, 5⟩], [5], {(5, 0)}, ∅, []⟩ : DBState)).2
    ⟨0, 5⟩ (by decide) (by decide)

/-- C10: the timestamp stored in the appended UpdateRecord is the clock
value captured before the wrapped run starts (its start time), not its
completion time; hence whenever the run processes every statement at or
after its start instant, every processing instant is at or after the ledger
record's timestamp. -/
theorem claim_C10 (flag : Bool) (func : Nat → DBState → RunOutcome) (t : Nat) (db : DBState)
    (hmono : ∀ e ∈ (func t db).event_times, t ≤ e)
    (hdone : (func t db).result = some true) :
    ∃ rec : Bool × Nat,
      (handle_update_table_timed flag func t db).db.updates.getLast? = some rec ∧
        rec.2 = t ∧
        ∀ e ∈ (handle_update_table_timed flag func t db).event_times, rec.2 ≤ e := by
  refine ⟨(flag, t), ?_, rfl, ?_⟩
  · rw [handle_update_table_timed]
    simp only [hdone, if_true]
    exact List.getLast?_concat _
  · rw [handle_update_table_timed]
    simp only [hdone, if_true]
    exact hmono

/-- C10 witness: a run starting at instant 4 that processes statements at
instants 4 and 5 and finishes at instant 6 stores the start instant 4 in its
ledger record, below all processing instants. -/
theorem claim_C10_witness :
    ∃ rec : Bool × Nat,
      (handle_update_table_timed true
          (fun s _ => ⟨⟨[], [], ∅, ∅, []⟩, some true, s + 2, [s, s + 1]⟩) 4
          (⟨[], [], ∅, ∅, []⟩ : DBState)).db.updates.getLast? = some rec ∧
        rec.2 = 4 ∧
        ∀ e ∈ (handle_update_table_timed true
            (fun s _ => ⟨⟨[], [], ∅, ∅, []⟩, some true, s + 2, [s, s + 1]⟩) 4
            (⟨[], [], ∅, ∅, []⟩ : DBState)).event_times, rec.2 ≤ e :=
  claim_C10 true (fun s _ => ⟨⟨[], [], ∅, ∅, []⟩, some true, s + 2, [s, s + 1]⟩) 4
    (⟨[], [], ∅, ∅, []⟩ : DBState) (by decide) (by decide)

/-- C7 counterexample: a create_corpus run on raw statements with uuids 0, 1
(keys 0, 1, identity hash, batch size 1) interrupted inside the second batch,
after insert_pa_stmts persisted the batch's unique statement (hash 1) but
before the evidence copy: the store holds pa rows for hashes 0 and 1 and an
evidence link only for raw 0.  Re-running create_corpus in continuing mode
re-deduplicates raw 1 — its hash is absent from the evidence-seeded done set
— and inserts a second UniqueStatement row for the already persisted hash 1:
the pa table becomes [0, 1, 1]. -/
theorem claim_C7_counterexample :
    (create_corpus (fun k => k) (fun _ _ => false) 1 true 0
        (⟨[⟨0, 0⟩, ⟨1, 1⟩], [0, 1], {(0, 0)}, ∅, []⟩ : DBState)).1.pa = [0, 1, 1] ∧
      ¬ (((create_corpus (fun k => k) (fun _ _ => false) 1 true 0
        (⟨[⟨0, 0⟩, ⟨1, 1⟩], [0, 1], {(0, 0)}, ∅, []⟩ : DBState)).1.pa.map
          (fun k => k)).Nodup) := by
  constructor
  · decide
  · decide

/-- C7 (amended to interruptions between batches, where each processed
batch's statement insert and evidence copy have both completed, as spec
section 5 allows): re-running create_corpus in continuing mode on the state
left by deduplicating any prefix of the raw statements never inserts a
second UniqueStatement row for a content hash that was already persisted —
the final pa table holds pairwise distinct hashes. -/
theorem claim_C7 (mkHash : Nat → Nat) (refines : Nat → Nat → Bool) (batchSize : Nat)
    (raws : List Raw) (n : Nat) (t : Nat) :
    (((create_corpus mkHash refines batchSize true t
        (get_unique_statements mkHash batchSize ⟨raws, [], ∅, ∅, []⟩ (raws.take n) ∅).1).1.pa).map
      mkHash).Nodup := by
  rw [create_corpus, handle_update_table_pa]
  have hstate : (get_unique_statements mkHash batchSize ⟨raws, [], ∅, ∅, []⟩ (raws.take n) ∅).1 =
      ⟨raws, guarded_keys mkHash ∅ ((raws.take n).map Raw.key),
        evidence_links mkHash (raws.take n), ∅, []⟩ := by
    rw [get_unique_statements, get_unique_statements_on_eq, batch_iter_flatten]
    simp
  rw [hstate]
  apply create_corpus_continue_nodup
  · exact (guarded_keys_nodup mkHash _ ∅).1
  · intro h hh
    simp only [evidence_links_fst]
    have : h ∈ ((guarded_keys mkHash ∅ ((raws.take n).map Raw.key)).map mkHash).toFinset :=
      List.mem_toFinset.mpr hh
    rw [guarded_keys_hashes, Finset.sdiff_empty] at this
    rw [List.mem_toFinset, List.map_map] at this
    simpa using this

/-- The incremental update never records a self-link: on any store whose
preassembled hashes are pairwise distinct and whose persisted support links
already have distinct endpoints, every support link after supplement_corpus
still has distinct endpoints. -/
theorem supplement_no_self (batchSize : Nat) (db : DBState) (t : Nat)
    (hsup0 : ∀ p ∈ db.sup_links, p.1 ≠ p.2) :
    ∀ p ∈ (supplement_corpus mkHash refines batchSize t db).1.sup_links, p.1 ≠ p.2 := by
  rw [supplement_corpus, handle_update_table_sup, supplement_corpus_body]
  have hgus : (get_unique_statements mkHash batchSize db
      (db.raw.filter fun r =>
        decide (r.uuid ∈ ((db.raw.map Raw.uuid).toFinset \ db.ev_links.image Prod.snd) ∩
          distill_stmts db))
      ((db.pa.map mkHash).toFinset)) =
      ({db with
          pa := db.pa ++ guarded_keys mkHash ((db.pa.map mkHash).toFinset)
            ((db.raw.filter fun r =>
              decide (r.uuid ∈ ((db.raw.map Raw.uuid).toFinset \ db.ev_links.image Prod.snd) ∩
                distill_stmts db)).map Raw.key),
          ev_links := db.ev_links ∪ evidence_links mkHash
            (db.raw.filter fun r =>
              decide (r.uuid ∈ ((db.raw.map Raw.uuid).toFinset \ db.ev_links.image Prod.snd) ∩
                distill_stmts db))},
        ((guarded_keys mkHash ((db.pa.map mkHash).toFinset)
          ((db.raw.filter fun r =>
            decide (r.uuid ∈ ((db.raw.map Raw.uuid).toFinset \ db.ev_links.image Prod.snd) ∩
              distill_stmts db)).map Raw.key)).map mkHash).toFinset) := by
    rw [get_unique_statements, get_unique_statements_on_eq, batch_iter_flatten]
    simp only [Finset.union_empty, Finset.empty_union]
  simp only [distill_stmts] at hgus
  rw [distill_stmts, hgus]
  have hlinks := supplement_links_eq mkHash refines batchSize
    {db with
      pa := db.pa ++ guarded_keys mkHash ((db.pa.map mkHash).toFinset)
        ((db.raw.filter fun r =>
          decide (r.uuid ∈ ((db.raw.map Raw.uuid).toFinset \ db.ev_links.image Prod.snd) ∩
            ((db.raw.map Raw.uuid).toFinset))).map Raw.key),
      ev_links := db.ev_links ∪ evidence_links mkHash
        (db.raw.filter fun r =>
          decide (r.uuid ∈ ((db.raw.map Raw.uuid).toFinset \ db.ev_links.image Prod.snd) ∩
            ((db.raw.map Raw.uuid).toFinset)))}
    db.pa
    (guarded_keys mkHash ((db.pa.map mkHash).toFinset)
      ((db.raw.filter fun r =>
        decide (r.uuid ∈ ((db.raw.map Raw.uuid).toFinset \ db.ev_links.image Prod.snd) ∩
          ((db.raw.map Raw.uuid).toFinset))).map Raw.key))
    rfl
    (guarded_keys_nodup mkHash _ _).1
    (by
      intro h hh2 hh1
      exact (guarded_keys_nodup mkHash _ _).2 h hh2 (List.mem_toFinset.mpr hh1))
  rw [hlinks]
  intro p hp
  simp only [Finset.mem_union] at hp
  have hno2 : ∀ q ∈ get_support_links mkHash refines
      (guarded_keys mkHash ((db.pa.map mkHash).toFinset)
        ((db.raw.filter fun r =>
          decide (r.uuid ∈ ((db.raw.map Raw.uuid).toFinset \ db.ev_links.image Prod.snd) ∩
            ((db.raw.map Raw.uuid).toFinset))).map Raw.key)) none,
      q.1 ≠ q.2 :=
    get_support_links_no_self mkHash refines (guarded_keys_nodup mkHash _ _).1
  have happart : ∀ a ∈ db.pa,
      ∀ c ∈ guarded_keys mkHash ((db.pa.map mkHash).toFinset)
        ((db.raw.filter fun r =>
          decide (r.uuid ∈ ((db.raw.map Raw.uuid).toFinset \ db.ev_links.image Prod.snd) ∩
            ((db.raw.map Raw.uuid).toFinset))).map Raw.key),
      mkHash a ≠ mkHash c := by
    intro a ha c hc he
    apply (guarded_keys_nodup mkHash _ _).2 (mkHash c) (List.mem_map.mpr ⟨c, hc, rfl⟩)
    rw [← he]
    exact List.mem_toFinset.mpr (List.mem_map.mpr ⟨a, ha, rfl⟩)
  rcases hp with hp | ((hp | hp) | hp)
  · exact hsup0 p hp
  · exact hno2 p hp
  · exact pair_links_no_self mkHash refines happart hp
  · exact pair_links_no_self mkHash refines
      (fun a ha c hc => (happart c hc a ha).symm) hp

/-- C8: no self-links.  Every SupportLink persisted by a fresh create_corpus
run, and every SupportLink persisted after a subsequent supplement_corpus
run on the extended raw table, has distinct supported and supporting hashes:
no statement hash is ever recorded as supporting itself. -/
theorem claim_C8 (mkHash : Nat → Nat) (refines : Nat → Nat → Bool) (batchSize : Nat)
    (R1 R2 : List Raw) (t1 t2 : Nat) :
    (∀ p ∈ (create_corpus mkHash refines batchSize false t1 ⟨R1, [], ∅, ∅, []⟩).1.sup_links,
        p.1 ≠ p.2) ∧
      ∀ p ∈ (supplement_corpus mkHash refines batchSize t2
          {(create_corpus mkHash refines batchSize false t1 ⟨R1, [], ∅, ∅, []⟩).1 with
            raw := R1 ++ R2}).1.sup_links, p.1 ≠ p.2 := by
  have hfresh := create_corpus_fresh mkHash refines batchSize R1 t1
  have h1 : ∀ p ∈ (create_corpus mkHash refines batchSize false t1
      ⟨R1, [], ∅, ∅, []⟩).1.sup_links, p.1 ≠ p.2 := by
    rw [hfresh]
    intro p hp
    exact get_support_links_no_self mkHash refines (guarded_keys_nodup mkHash _ _).1 p hp
  refine ⟨h1, ?_⟩
  apply supplement_no_self
  rw [hfresh]
  intro p hp
  exact get_support_links_no_self mkHash refines (guarded_keys_nodup mkHash _ _).1 p hp

/-- C8 witness: in a concrete corpus whose support table contains the link
(10, 11), the persisted link indeed has distinct endpoints. -/
theorem claim_C8_witness :
    ((10 : Nat), (11 : Nat)) ∈
        (create_corpus (fun k => k) (fun a b => decide (a < b)) 1 false 5
          (⟨[⟨0, 10⟩, ⟨1, 11⟩], [], ∅, ∅, []⟩ : DBState)).1.sup_links ∧
      (((10 : Nat), (11 : Nat)) : Nat × Nat).1 ≠ ((10 : Nat), (11 : Nat)).2 :=
  ⟨by decide,
    (claim_C8 (fun k => k) (fun a b => decide (a < b)) 1 [⟨0, 10⟩, ⟨1, 11⟩] [] 5 6).1
      (10, 11) (by decide)⟩

end Preassembly
